import Mathlib

/-!
Shallow embedding of the Sudoku solving engine in `src/sudoku_leetcode.cpp`
(`class BoardMap`).  The 9x9 board `vector<vector<char>>` is modelled as a
flat `List Char` of 81 cells, cell `(y, x)` stored at index `9*y + x`
exactly as the C++ code's running index `i` enumerates it.  `uint16_t`
bitmasks are modelled as `Nat` with explicit 16-bit complements
(`65535 ^^^ flags` stands for the C++ `~flags` on `uint16_t`).  The
`std::set<uint8_t> unsolved` is modelled as a strictly ascending
`List Nat`, which is exactly the iteration order the C++ code observes.
The recursive `solve` is modelled with an explicit fuel parameter; fuel
sufficiency is proved separately.
-/

set_option maxRecDepth 4000
set_option synthInstance.maxSize 2000
set_option maxHeartbeats 1600000

/-- The solver state: the bound board plus the possibility table.
Fields mirror the data members of `class BoardMap`. -/
structure BoardMap where
  board : List Char
  unsolved : List Nat
  squares : List Nat
  rows : List Nat
  columns : List Nat
  blocks : List Nat
deriving DecidableEq, Repr

/-- `rowIndex` from the source: `squareIndex / 9`. -/
def rowIndex (squareIndex : Nat) : Nat := squareIndex / 9

/-- `columnIndex` from the source: `squareIndex % 9`. -/
def columnIndex (squareIndex : Nat) : Nat := squareIndex % 9

/-- `blockIndex` from the source: `columnIndex/3 + 3*(rowIndex/3)`. -/
def blockIndex (squareIndex : Nat) : Nat :=
  columnIndex squareIndex / 3 + 3 * (rowIndex squareIndex / 3)

/-- The singleton bitmask of a filled cell character: `1 << (square - '1')`. -/
def charMask (square : Char) : Nat := 1 <<< (square.toNat - 49)

/-- `updateGroups` from the source: fold `squares[index]` into the row,
column and block masks of the cell. -/
def updateGroups (bm : BoardMap) (index : Nat) : BoardMap :=
  { bm with
    rows := bm.rows.set (rowIndex index)
      (bm.rows.getD (rowIndex index) 0 ||| bm.squares.getD index 0),
    columns := bm.columns.set (columnIndex index)
      (bm.columns.getD (columnIndex index) 0 ||| bm.squares.getD index 0),
    blocks := bm.blocks.set (blockIndex index)
      (bm.blocks.getD (blockIndex index) 0 ||| bm.squares.getD index 0) }

/-- One step of the `BoardMap` constructor loop body: for cell `i`, either
record it as unsolved with all nine bits, or set its singleton mask and
call `updateGroups`. -/
def initSquare (bm : BoardMap) (i : Nat) : BoardMap :=
  let square := bm.board.getD i '.'
  if square = '.' then
    { bm with unsolved := bm.unsolved ++ [i], squares := bm.squares.set i 511 }
  else
    updateGroups { bm with squares := bm.squares.set i (charMask square) } i

/-- The `BoardMap` constructor: zeroed group masks, then the double loop
over all cells in ascending flat index order. -/
def mkBoardMap (board : List Char) : BoardMap :=
  (List.range 81).foldl initSquare
    { board := board, unsolved := [], squares := List.replicate 81 0,
      rows := List.replicate 9 0, columns := List.replicate 9 0,
      blocks := List.replicate 9 0 }

/-- The pre-loop state of the constructor (board bound, all group masks
zeroed by `memset`, `unsolved` empty); `mkBoardMap g` folds over it. -/
def mkInit (board : List Char) : BoardMap :=
  { board := board, unsolved := [], squares := List.replicate 81 0,
    rows := List.replicate 9 0, columns := List.replicate 9 0,
    blocks := List.replicate 9 0 }

lemma mkBoardMap_eq_fold (g : List Char) :
    mkBoardMap g = (List.range 81).foldl initSquare (mkInit g) := rfl

/-- `removePossibilities` from the source: `squares[index] &= ~flags`
(16-bit complement). -/
def removePossibilities (bm : BoardMap) (index : Nat) (flags : Nat) : BoardMap :=
  { bm with squares :=
      bm.squares.set index (bm.squares.getD index 0 &&& (65535 ^^^ flags)) }

/-- The bit-counting loop body of `numPossibilities`:
`while (val > 0) { if (val % 2 == 1) { found++; val--; } val >>= 1; }`.
The first argument is structural fuel; `val` itself always suffices. -/
def numPossGo : Nat → Nat → Nat
  | 0, _ => 0
  | f + 1, val => if val = 0 then 0 else val % 2 + numPossGo f (val / 2)

/-- Number of set bits of a square bitmask. -/
def bitCount (val : Nat) : Nat := numPossGo val val

/-- `numPossibilities` from the source, reading `squares[index]`. -/
def numPossibilities (bm : BoardMap) (index : Nat) : Nat :=
  bitCount (bm.squares.getD index 0)

/-- `toChar` from the source: scan `i = 0..8`; if `bitmap == 1 << i`
return `'1' + i`; otherwise return `'.'`. -/
def toChar (bitmap : Nat) : Char :=
  ((List.range 9).findSome? fun i =>
    if bitmap = 1 <<< i then some (Char.ofNat (49 + i)) else none).getD '.'

/-- Body of the `reduceOptions` loop for one unsolved cell `index`.  The
accumulator carries the solver state, the pass-local `solved` set (the
function-local set in the source, cleared at the end of every call) and
the `reduced` counter. -/
def reduceStep (st : BoardMap × List Nat × Nat) (index : Nat) :
    BoardMap × List Nat × Nat :=
  let bm := st.1
  let options := bm.squares.getD index 0
  let bm := removePossibilities bm index (bm.rows.getD (rowIndex index) 0)
  let bm := removePossibilities bm index (bm.columns.getD (columnIndex index) 0)
  let bm := removePossibilities bm index (bm.blocks.getD (blockIndex index) 0)
  if options ≠ bm.squares.getD index 0 then
    let solution := toChar (bm.squares.getD index 0)
    if solution ≠ '.' then
      (updateGroups { bm with board := bm.board.set index solution } index,
        st.2.1 ++ [index], st.2.2 + 1)
    else
      (bm, st.2.1, st.2.2 + 1)
  else
    (bm, st.2.1, st.2.2)

/-- `reduceOptions` from the source: one pass over `unsolved` in ascending
order, then the deferred erasure of the cells solved during the pass. -/
def reduceOptions (bm : BoardMap) : BoardMap × Nat :=
  let st := bm.unsolved.foldl reduceStep (bm, [], 0)
  ({ st.1 with unsolved := st.1.unsolved.filter fun i => !(st.2.1.contains i) },
    st.2.2)

/-- Sum of the remaining possibility counts of all squares; the measure
that bounds the number of productive propagation passes. -/
def totalPoss (bm : BoardMap) : Nat := (bm.squares.map bitCount).sum

/-- The `do { updated = reduceOptions(); } while (updated > 0)` loop of
`solve`, with fuel.  Fuel `totalPoss bm + 1` always reaches the fixpoint. -/
def propagateGo : Nat → BoardMap → BoardMap
  | 0, bm => bm
  | fuel + 1, bm =>
    let st := reduceOptions bm
    if st.2 > 0 then propagateGo fuel st.1 else st.1

/-- Propagation to fixpoint, as run at the head of every `solve` call. -/
def propagate (bm : BoardMap) : BoardMap := propagateGo (totalPoss bm + 1) bm

/-- The cell-selection scan of `solve`: iterate `unsolved` carrying
`fewestPossibilities` (initially 9) and `guessIndex` (initially 0);
return `none` on the early `return false` for a zero-possibility cell. -/
def scanGuess (bm : BoardMap) : List Nat → Nat → Nat → Option (Nat × Nat)
  | [], fewest, gi => some (fewest, gi)
  | index :: rest, fewest, gi =>
    let options := numPossibilities bm index
    if options = 0 then none
    else if options < fewest then scanGuess bm rest options index
    else scanGuess bm rest fewest gi

/-- The `while (guess < 9)` candidate-selection loop of `solve`; the fuel
argument counts the remaining iterations (8 tests for guesses 1..8). -/
def pickGuessGo : Nat → Nat → Nat → Nat
  | 0, guess, _ => guess
  | fuel + 1, guess, mask =>
    if mask &&& (1 <<< (guess - 1)) > 0 then guess
    else pickGuessGo fuel (guess + 1) mask

/-- The guessed symbol for a cell mask: lowest value in 1..8 whose bit is
set, else 9 (chosen without a test, exactly as in the source). -/
def pickGuess (mask : Nat) : Nat := pickGuessGo 8 1 mask

/-- The `while (!unsolved.empty())` search loop of `solve`, with fuel.
Returns the boolean result, the final state of this `BoardMap` instance
(whose `board` field is the bound grid) and the sequence of guesses
`(cell index, symbol value)` made during the whole search, in order.
`none` means the fuel ran out (never happens with sufficient fuel). -/
def solveGo : Nat → BoardMap → Option (Bool × BoardMap × List (Nat × Nat))
  | 0, _ => none
  | fuel + 1, bm =>
    if bm.unsolved.isEmpty then some (true, bm, [])
    else
      match scanGuess bm bm.unsolved 9 0 with
      | none => some (false, bm, [])
      | some (_, guessIndex) =>
        let guess := pickGuess (bm.squares.getD guessIndex 0)
        -- boardCopy[rowIndex][columnIndex] = '0' + guess, on a copy
        let boardCopy := bm.board.set guessIndex (Char.ofNat (48 + guess))
        match solveGo fuel (propagate (mkBoardMap boardCopy)) with
        | none => none
        | some (true, copy, tr) =>
          some (true, { bm with board := copy.board }, (guessIndex, guess) :: tr)
        | some (false, _, tr) =>
          -- squares[guessIndex] &= ~(1 << (guess - 1)), then loop again
          let retracted :=
            bm.squares.set guessIndex
              (bm.squares.getD guessIndex 0 &&& (65535 ^^^ (1 <<< (guess - 1))))
          match solveGo fuel { bm with squares := retracted } with
          | none => none
          | some (b, bm2, tr2) => some (b, bm2, (guessIndex, guess) :: tr ++ tr2)

/-- `BoardMap(board).solve()`: construct the possibility table, run
propagation to fixpoint, then the search loop. -/
def solve (fuel : Nat) (board : List Char) :
    Option (Bool × BoardMap × List (Nat × Nat)) :=
  solveGo fuel (propagate (mkBoardMap board))

/-! ### Bitmask toolkit

All square and group masks occurring in a run are below `512 = 2^9`.
`bitCount` (the loop of `numPossibilities`) is related to the `Finset`
of set bits, from which monotonicity facts follow. -/

/-- The set bits of a 9-bit mask, as a `Finset`. -/
def maskBits (m : Nat) : Finset Nat :=
  (Finset.range 9).filter fun b => m.testBit b = true

lemma bitCount_eq_card : ∀ m < 512, bitCount m = (maskBits m).card := by decide

lemma bitCount_eq_zero : ∀ m < 512, (bitCount m = 0 ↔ m = 0) := by decide

lemma bitCount_le_nine : ∀ m < 512, bitCount m ≤ 9 := by decide

lemma bitCount_eq_one : ∀ m < 512, (bitCount m = 1 ↔ ∃ b < 9, m = 1 <<< b) := by
  decide

lemma bitCount_eq_nine : ∀ m < 512, bitCount m = 9 → m = 511 := by decide

lemma toChar_eq_dot : ∀ m < 512, (toChar m = '.' ↔ bitCount m ≠ 1) := by decide

lemma charMask_toChar : ∀ m < 512, bitCount m = 1 → charMask (toChar m) = m := by
  decide

lemma toChar_mem_digit : ∀ m < 512, toChar m ≠ '.' →
    toChar m ∈ ['1','2','3','4','5','6','7','8','9'] := by decide

/-- Any mask all of whose bits are bits of a mask `< 512` is itself `< 512`. -/
lemma submask_lt {m' m : Nat} (hm : m < 512)
    (hsub : ∀ b, m'.testBit b = true → m.testBit b = true) : m' < 512 := by
  have h9 : (512 : Nat) = 2 ^ 9 := rfl
  refine h9 ▸ Nat.lt_pow_two_of_testBit m' fun i hi => ?_
  by_contra hbit
  have := hsub i (by revert hbit; cases m'.testBit i <;> simp)
  have hfalse : m.testBit i = false :=
    Nat.testBit_lt_two_pow (Nat.lt_of_lt_of_le (h9 ▸ hm) (Nat.pow_le_pow_right (by norm_num) hi))
  simp [hfalse] at this

lemma maskBits_subset {m' m : Nat}
    (hsub : ∀ b, m'.testBit b = true → m.testBit b = true) :
    maskBits m' ⊆ maskBits m := by
  intro b hb
  simp only [maskBits, Finset.mem_filter] at hb ⊢
  exact ⟨hb.1, hsub b hb.2⟩

lemma eq_of_maskBits_eq {m' m : Nat} (hm' : m' < 512) (hm : m < 512)
    (h : maskBits m' = maskBits m) : m' = m := by
  refine Nat.eq_of_testBit_eq fun b => ?_
  by_cases hb : b < 9
  · have : (b ∈ maskBits m') = (b ∈ maskBits m) := by rw [h]
    simp only [maskBits, Finset.mem_filter, Finset.mem_range, eq_iff_iff] at this
    have h1 := this.mp
    have h2 := this.mpr
    cases hb1 : m'.testBit b <;> cases hb2 : m.testBit b <;> simp_all
  · have hge : 9 ≤ b := Nat.le_of_not_lt hb
    have e1 : m'.testBit b = false := Nat.testBit_lt_two_pow
      (Nat.lt_of_lt_of_le hm' (Nat.pow_le_pow_right (by norm_num : 0 < 2) hge))
    have e2 : m.testBit b = false := Nat.testBit_lt_two_pow
      (Nat.lt_of_lt_of_le hm (Nat.pow_le_pow_right (by norm_num : 0 < 2) hge))
    rw [e1, e2]

lemma bitCount_le_of_submask {m' m : Nat} (hm : m < 512)
    (hsub : ∀ b, m'.testBit b = true → m.testBit b = true) :
    bitCount m' ≤ bitCount m := by
  rw [bitCount_eq_card m' (submask_lt hm hsub), bitCount_eq_card m hm]
  exact Finset.card_le_card (maskBits_subset hsub)

lemma bitCount_lt_of_submask_ne {m' m : Nat} (hm : m < 512)
    (hsub : ∀ b, m'.testBit b = true → m.testBit b = true) (hne : m' ≠ m) :
    bitCount m' < bitCount m := by
  have hm' := submask_lt hm hsub
  rw [bitCount_eq_card m' hm', bitCount_eq_card m hm]
  refine Finset.card_lt_card ⟨maskBits_subset hsub, fun hsup => ?_⟩
  exact hne (eq_of_maskBits_eq hm' hm
    (Finset.Subset.antisymm (maskBits_subset hsub) hsup))

lemma bitCount_le_eight {m b : Nat} (hm : m < 512) (hb : b < 9)
    (h : m.testBit b = false) : bitCount m ≤ 8 := by
  rw [bitCount_eq_card m hm]
  have hsub : maskBits m ⊆ (Finset.range 9).erase b := by
    intro x hx
    simp only [maskBits, Finset.mem_filter] at hx
    refine Finset.mem_erase.mpr ⟨fun hxb => ?_, hx.1⟩
    rw [hxb] at hx; rw [h] at hx; exact absurd hx.2 (by simp)
  calc (maskBits m).card ≤ ((Finset.range 9).erase b).card := Finset.card_le_card hsub
    _ ≤ 8 := by
        rw [Finset.card_erase_of_mem (Finset.mem_range.mpr hb)]
        simp

/-- Bits of the 16-bit complement-and (`x &= ~flags` in the source), below
bit 16: kept iff set before and not set in `flags`. -/
lemma testBit_removal {m g b : Nat} (hb : b < 16) :
    (m &&& (65535 ^^^ g)).testBit b = (m.testBit b && !(g.testBit b)) := by
  have h16 : (65535 : Nat) = 2 ^ 16 - 1 := rfl
  rw [Nat.testBit_and, Nat.testBit_xor, h16, Nat.testBit_two_pow_sub_one]
  simp [hb, Bool.xor_comm]

lemma testBit_removal_of_ge {m g b : Nat} (hm : m < 512) (hb : 9 ≤ b) :
    (m &&& (65535 ^^^ g)).testBit b = false := by
  rw [Nat.testBit_and]
  have : m.testBit b = false := Nat.testBit_lt_two_pow
    (Nat.lt_of_lt_of_le hm (Nat.pow_le_pow_right (by norm_num : 0 < 2) hb))
  simp [this]

/-! ### List access toolkit -/

lemma getD_set_self {α : Type} {l : List α} {i : Nat} {v d : α}
    (h : i < l.length) : (l.set i v).getD i d = v := by
  rw [List.getD_eq_getElem?_getD, List.getElem?_set_self h]
  rfl

lemma getD_set_ne {α : Type} {l : List α} {i j : Nat} (v d : α) (h : i ≠ j) :
    (l.set i v).getD j d = l.getD j d := by
  rw [List.getD_eq_getElem?_getD, List.getElem?_set_ne h,
    ← List.getD_eq_getElem?_getD]

lemma getD_replicate_self {α : Type} {n i : Nat} {a : α} :
    (List.replicate n a).getD i a = a := by
  rw [List.getD_eq_getElem?_getD, List.getElem?_replicate]
  by_cases h : i < n <;> simp [h]

/-! ### Board-level predicates used to state the claims -/

/-- The nine symbol characters. -/
def digitChars : List Char := ['1','2','3','4','5','6','7','8','9']

/-- The symbol character for bit `b` (`'1' + b`). -/
def digitChar (b : Nat) : Char := Char.ofNat (49 + b)

/-- A well-formed input grid: 81 cells, each `'1'`-`'9'` or `'.'`. -/
def WellFormedInput (g : List Char) : Prop :=
  g.length = 81 ∧ ∀ i < 81, g.getD i '.' = '.' ∨ g.getD i '.' ∈ digitChars

/-- Two cells share a row, a column, or a 3x3 block. -/
def sameGroup (i j : Nat) : Prop :=
  rowIndex i = rowIndex j ∨ columnIndex i = columnIndex j ∨
    blockIndex i = blockIndex j

/-- No symbol occurs twice among the filled cells of any group. -/
def ValidPartialBoard (g : List Char) : Prop :=
  ∀ i < 81, ∀ j < 81, i ≠ j → sameGroup i j →
    g.getD i '.' ≠ '.' → g.getD j '.' ≠ '.' → g.getD i '.' ≠ g.getD j '.'

/-- Every cell is filled with a symbol. -/
def CompleteBoard (g : List Char) : Prop := ∀ i < 81, g.getD i '.' ∈ digitChars

/-- `g'` preserves every filled cell of `g`. -/
def ExtendsBoard (g g' : List Char) : Prop :=
  ∀ i < 81, g.getD i '.' ≠ '.' → g'.getD i '.' = g.getD i '.'

/-- `s` is a complete valid solution compatible with the clues of `g`. -/
def IsSolutionOf (s g : List Char) : Prop :=
  s.length = 81 ∧ CompleteBoard s ∧ ValidPartialBoard s ∧ ExtendsBoard g s

/-- The flat indices of row `k`. -/
def rowCells (k : Nat) : List Nat := (List.range 9).map fun x => 9 * k + x

/-- The flat indices of column `k`. -/
def colCells (k : Nat) : List Nat := (List.range 9).map fun y => 9 * y + k

/-- The flat indices of 3x3 block `k`. -/
def blockCells (k : Nat) : List Nat :=
  (List.range 9).map fun j => 27 * (k / 3) + 3 * (k % 3) + 9 * (j / 3) + j % 3

/-- The cell values of a group of a board. -/
def groupVals (g : List Char) (cells : List Nat) : List Char :=
  cells.map fun i => g.getD i '.'

/-- Every row, column and block holds each of the nine symbols exactly
once. -/
def GroupsExactlyOnce (g : List Char) : Prop :=
  ∀ k < 9, ∀ c ∈ digitChars,
    (groupVals g (rowCells k)).count c = 1 ∧
    (groupVals g (colCells k)).count c = 1 ∧
    (groupVals g (blockCells k)).count c = 1

instance (i j : Nat) : Decidable (sameGroup i j) := by
  unfold sameGroup; infer_instance

instance (g : List Char) : Decidable (WellFormedInput g) := by
  unfold WellFormedInput; infer_instance

instance (g : List Char) : Decidable (ValidPartialBoard g) := by
  unfold ValidPartialBoard; infer_instance

instance (g : List Char) : Decidable (CompleteBoard g) := by
  unfold CompleteBoard; infer_instance

instance (g g' : List Char) : Decidable (ExtendsBoard g g') := by
  unfold ExtendsBoard; infer_instance

instance (s g : List Char) : Decidable (IsSolutionOf s g) := by
  unfold IsSolutionOf; infer_instance

instance (g : List Char) : Decidable (GroupsExactlyOnce g) := by
  unfold GroupsExactlyOnce; infer_instance

/-! ### Digit-character lemmas -/

lemma charMask_lt : ∀ c ∈ digitChars, charMask c < 512 := by decide

lemma charMask_testBit :
    ∀ c ∈ digitChars, ∀ b < 9, ((charMask c).testBit b = true ↔ c = digitChar b) := by
  decide

lemma digitChar_mem : ∀ b < 9, digitChar b ∈ digitChars := by decide

lemma bitCount_charMask : ∀ c ∈ digitChars, bitCount (charMask c) = 1 := by decide

lemma charMask_testBit_self :
    ∀ c ∈ digitChars, (charMask c).testBit (c.toNat - 49) = true := by decide

lemma digit_ne_dot : ∀ c ∈ digitChars, c ≠ '.' := by decide

lemma charMask_testBit_ge {c : Char} {b : Nat} (hc : c ∈ digitChars) (hb : 9 ≤ b) :
    (charMask c).testBit b = false :=
  Nat.testBit_lt_two_pow (Nat.lt_of_lt_of_le (charMask_lt c hc)
    (Nat.pow_le_pow_right (by norm_num : 0 < 2) hb))

lemma guessChar_eq : ∀ v, 1 ≤ v → v ≤ 9 →
    Char.ofNat (48 + v) = digitChar (v - 1) ∧ Char.ofNat (48 + v) ∈ digitChars := by
  decide

lemma testBit_lt_512 {m b : Nat} (hm : m < 512) (hb : 9 ≤ b) : m.testBit b = false :=
  Nat.testBit_lt_two_pow (Nat.lt_of_lt_of_le hm
    (Nat.pow_le_pow_right (by norm_num : 0 < 2) hb))

/-! ### Characterization of the constructor -/

/-- Invariant of the constructor loop after the cells `< n` have been
processed (`bm` is the fold state). -/
structure MkInv (g : List Char) (n : Nat) (bm : BoardMap) : Prop where
  board_eq : bm.board = g
  sq_len : bm.squares.length = 81
  rows_len : bm.rows.length = 9
  cols_len : bm.columns.length = 9
  blocks_len : bm.blocks.length = 9
  uns_eq : bm.unsolved = (List.range n).filter fun i => g.getD i '.' == '.'
  sq_proc : ∀ i < n, bm.squares.getD i 0 =
    if g.getD i '.' = '.' then 511 else charMask (g.getD i '.')
  sq_rest : ∀ i, n ≤ i → bm.squares.getD i 0 = 0
  rows_bit : ∀ k < 9, ∀ b, ((bm.rows.getD k 0).testBit b = true ↔
    ∃ i < n, rowIndex i = k ∧ g.getD i '.' ≠ '.' ∧
      (charMask (g.getD i '.')).testBit b = true)
  cols_bit : ∀ k < 9, ∀ b, ((bm.columns.getD k 0).testBit b = true ↔
    ∃ i < n, columnIndex i = k ∧ g.getD i '.' ≠ '.' ∧
      (charMask (g.getD i '.')).testBit b = true)
  blocks_bit : ∀ k < 9, ∀ b, ((bm.blocks.getD k 0).testBit b = true ↔
    ∃ i < n, blockIndex i = k ∧ g.getD i '.' ≠ '.' ∧
      (charMask (g.getD i '.')).testBit b = true)

lemma rowIndex_lt {i : Nat} (h : i < 81) : rowIndex i < 9 :=
  Nat.div_lt_of_lt_mul h

lemma columnIndex_lt (i : Nat) : columnIndex i < 9 :=
  Nat.mod_lt i (by norm_num)

lemma blockIndex_lt {i : Nat} (h : i < 81) : blockIndex i < 9 := by
  have h1 : columnIndex i / 3 < 3 :=
    Nat.div_lt_of_lt_mul (by have := columnIndex_lt i; omega)
  have h2 : rowIndex i / 3 < 3 :=
    Nat.div_lt_of_lt_mul (by have := rowIndex_lt h; omega)
  unfold blockIndex
  omega

lemma mkInv_zero (g : List Char) : MkInv g 0 (mkInit g) := by
  unfold mkInit
  refine ⟨rfl, by simp, by simp, by simp, by simp, by simp, ?_, ?_, ?_, ?_, ?_⟩
  · intro i hi; omega
  · intro i _; exact getD_replicate_self
  · intro k _ b
    rw [getD_replicate_self]
    simp
  · intro k _ b
    rw [getD_replicate_self]
    simp
  · intro k _ b
    rw [getD_replicate_self]
    simp

lemma mkInv_step {g : List Char} {n : Nat} {bm : BoardMap} (hn : n < 81)
    (h : MkInv g n bm) : MkInv g (n + 1) (initSquare bm n) := by
  obtain ⟨hb, hsl, hrl, hcl, hbl, hu, hsp, hsr, hrb, hcb, hbb⟩ := h
  unfold initSquare
  rw [hb]
  by_cases hdot : g.getD n '.' = '.'
  · rw [if_pos hdot]
    refine ⟨rfl, by simpa using hsl, hrl, hcl, hbl, ?_, ?_, ?_, ?_, ?_, ?_⟩
    · simp only [List.range_succ, List.filter_append, hu]
      rw [List.getD_eq_getElem?_getD] at hdot
      simp [hdot]
    · intro i hi
      rcases Nat.lt_or_ge i n with hlt | hge
      · rw [getD_set_ne _ _ (by omega), hsp i hlt]
      · have hieq : i = n := by omega
        subst hieq
        rw [getD_set_self (by omega), if_pos hdot]
    · intro i hi
      rw [getD_set_ne _ _ (by omega), hsr i (by omega)]
    · intro k hk b
      rw [hrb k hk b]
      constructor
      · rintro ⟨i, hi, hrest⟩; exact ⟨i, by omega, hrest⟩
      · rintro ⟨i, hi, hik, hne, hbit⟩
        refine ⟨i, ?_, hik, hne, hbit⟩
        rcases Nat.lt_or_ge i n with hlt | hge
        · exact hlt
        · have : i = n := by omega
          subst this; exact absurd hdot hne
    · intro k hk b
      rw [hcb k hk b]
      constructor
      · rintro ⟨i, hi, hrest⟩; exact ⟨i, by omega, hrest⟩
      · rintro ⟨i, hi, hik, hne, hbit⟩
        refine ⟨i, ?_, hik, hne, hbit⟩
        rcases Nat.lt_or_ge i n with hlt | hge
        · exact hlt
        · have : i = n := by omega
          subst this; exact absurd hdot hne
    · intro k hk b
      rw [hbb k hk b]
      constructor
      · rintro ⟨i, hi, hrest⟩; exact ⟨i, by omega, hrest⟩
      · rintro ⟨i, hi, hik, hne, hbit⟩
        refine ⟨i, ?_, hik, hne, hbit⟩
        rcases Nat.lt_or_ge i n with hlt | hge
        · exact hlt
        · have : i = n := by omega
          subst this; exact absurd hdot hne
  · rw [if_neg hdot]
    have hsq : ((bm.squares.set n (charMask (g.getD n '.'))).getD n 0) =
        charMask (g.getD n '.') := getD_set_self (by omega)
    unfold updateGroups
    refine ⟨rfl, by simpa using hsl, by simpa using hrl, by simpa using hcl,
      by simpa using hbl, ?_, ?_, ?_, ?_, ?_, ?_⟩
    · simp only [List.range_succ, List.filter_append, hu]
      rw [List.getD_eq_getElem?_getD] at hdot
      simp [hdot]
    · intro i hi
      rcases Nat.lt_or_ge i n with hlt | hge
      · simp only []
        rw [getD_set_ne _ _ (by omega), hsp i hlt]
      · have hieq : i = n := by omega
        subst hieq
        simp only []
        rw [getD_set_self (by omega), if_neg hdot]
    · intro i hi
      simp only []
      rw [getD_set_ne _ _ (by omega), hsr i (by omega)]
    · intro k hk b
      simp only [hsq]
      by_cases hkr : k = rowIndex n
      · subst hkr
        rw [getD_set_self (by rw [hrl]; exact rowIndex_lt hn), Nat.testBit_or]
        constructor
        · intro hor
          rcases Bool.or_eq_true_iff.mp hor with h1 | h1
          · obtain ⟨i, hi, hrest⟩ := (hrb _ (rowIndex_lt hn) b).mp h1
            exact ⟨i, by omega, hrest⟩
          · exact ⟨n, by omega, rfl, hdot, h1⟩
        · rintro ⟨i, hi, hik, hne, hbit⟩
          rcases Nat.lt_or_ge i n with hlt | hge
          · exact Bool.or_eq_true_iff.mpr
              (Or.inl ((hrb _ (rowIndex_lt hn) b).mpr ⟨i, hlt, hik, hne, hbit⟩))
          · have : i = n := by omega
            subst this
            exact Bool.or_eq_true_iff.mpr (Or.inr hbit)
      · rw [getD_set_ne _ _ (fun hh => hkr hh.symm), hrb k hk b]
        constructor
        · rintro ⟨i, hi, hrest⟩; exact ⟨i, by omega, hrest⟩
        · rintro ⟨i, hi, hik, hne, hbit⟩
          rcases Nat.lt_or_ge i n with hlt | hge
          · exact ⟨i, hlt, hik, hne, hbit⟩
          · have : i = n := by omega
            subst this; exact absurd hik.symm hkr
    · intro k hk b
      simp only [hsq]
      by_cases hkr : k = columnIndex n
      · subst hkr
        rw [getD_set_self (by rw [hcl]; exact columnIndex_lt n), Nat.testBit_or]
        constructor
        · intro hor
          rcases Bool.or_eq_true_iff.mp hor with h1 | h1
          · obtain ⟨i, hi, hrest⟩ := (hcb _ (columnIndex_lt n) b).mp h1
            exact ⟨i, by omega, hrest⟩
          · exact ⟨n, by omega, rfl, hdot, h1⟩
        · rintro ⟨i, hi, hik, hne, hbit⟩
          rcases Nat.lt_or_ge i n with hlt | hge
          · exact Bool.or_eq_true_iff.mpr
              (Or.inl ((hcb _ (columnIndex_lt n) b).mpr ⟨i, hlt, hik, hne, hbit⟩))
          · have : i = n := by omega
            subst this
            exact Bool.or_eq_true_iff.mpr (Or.inr hbit)
      · rw [getD_set_ne _ _ (fun hh => hkr hh.symm), hcb k hk b]
        constructor
        · rintro ⟨i, hi, hrest⟩; exact ⟨i, by omega, hrest⟩
        · rintro ⟨i, hi, hik, hne, hbit⟩
          rcases Nat.lt_or_ge i n with hlt | hge
          · exact ⟨i, hlt, hik, hne, hbit⟩
          · have : i = n := by omega
            subst this; exact absurd hik.symm hkr
    · intro k hk b
      simp only [hsq]
      by_cases hkr : k = blockIndex n
      · subst hkr
        rw [getD_set_self (by rw [hbl]; exact blockIndex_lt hn), Nat.testBit_or]
        constructor
        · intro hor
          rcases Bool.or_eq_true_iff.mp hor with h1 | h1
          · obtain ⟨i, hi, hrest⟩ := (hbb _ (blockIndex_lt hn) b).mp h1
            exact ⟨i, by omega, hrest⟩
          · exact ⟨n, by omega, rfl, hdot, h1⟩
        · rintro ⟨i, hi, hik, hne, hbit⟩
          rcases Nat.lt_or_ge i n with hlt | hge
          · exact Bool.or_eq_true_iff.mpr
              (Or.inl ((hbb _ (blockIndex_lt hn) b).mpr ⟨i, hlt, hik, hne, hbit⟩))
          · have : i = n := by omega
            subst this
            exact Bool.or_eq_true_iff.mpr (Or.inr hbit)
      · rw [getD_set_ne _ _ (fun hh => hkr hh.symm), hbb k hk b]
        constructor
        · rintro ⟨i, hi, hrest⟩; exact ⟨i, by omega, hrest⟩
        · rintro ⟨i, hi, hik, hne, hbit⟩
          rcases Nat.lt_or_ge i n with hlt | hge
          · exact ⟨i, hlt, hik, hne, hbit⟩
          · have : i = n := by omega
            subst this; exact absurd hik.symm hkr

lemma mkInv_upto (g : List Char) :
    ∀ n ≤ 81, MkInv g n ((List.range n).foldl initSquare (mkInit g)) := by
  intro n
  induction n with
  | zero => intro _; exact mkInv_zero g
  | succ n ih =>
    intro hn
    rw [List.range_succ, List.foldl_append]
    exact mkInv_step (by omega) (ih (by omega))

/-- The fully characterized result of the constructor. -/
lemma mkBoardMap_inv (g : List Char) : MkInv g 81 (mkBoardMap g) := by
  rw [mkBoardMap_eq_fold]
  exact mkInv_upto g 81 (by omega)

/-! ### The run-time invariant of a solver state -/

/-- Invariant holding for every `BoardMap` reachable during a run on a
well-formed, duplicate-free input grid. -/
structure SInv (bm : BoardMap) : Prop where
  board_len : bm.board.length = 81
  sq_len : bm.squares.length = 81
  rows_len : bm.rows.length = 9
  cols_len : bm.columns.length = 9
  blocks_len : bm.blocks.length = 9
  wf : ∀ i < 81, bm.board.getD i '.' = '.' ∨ bm.board.getD i '.' ∈ digitChars
  sq_lt : ∀ i < 81, bm.squares.getD i 0 < 512
  rows_lt : ∀ k < 9, bm.rows.getD k 0 < 512
  cols_lt : ∀ k < 9, bm.columns.getD k 0 < 512
  blocks_lt : ∀ k < 9, bm.blocks.getD k 0 < 512
  uns_sorted : bm.unsolved.Pairwise (· < ·)
  uns_lt : ∀ i ∈ bm.unsolved, i < 81
  uns_mem : ∀ i < 81, (i ∈ bm.unsolved ↔ bm.board.getD i '.' = '.')
  sq_filled : ∀ i < 81, bm.board.getD i '.' ≠ '.' →
    bm.squares.getD i 0 = charMask (bm.board.getD i '.')
  rows_bit : ∀ k < 9, ∀ b < 9, ((bm.rows.getD k 0).testBit b = true ↔
    ∃ i < 81, rowIndex i = k ∧ bm.board.getD i '.' = digitChar b)
  cols_bit : ∀ k < 9, ∀ b < 9, ((bm.columns.getD k 0).testBit b = true ↔
    ∃ i < 81, columnIndex i = k ∧ bm.board.getD i '.' = digitChar b)
  blocks_bit : ∀ k < 9, ∀ b < 9, ((bm.blocks.getD k 0).testBit b = true ↔
    ∃ i < 81, blockIndex i = k ∧ bm.board.getD i '.' = digitChar b)
  valid : ValidPartialBoard bm.board

/-- The propagation fixpoint property: every unsolved cell's mask is
disjoint from its three group masks (no pass can change anything). -/
def PropFix (bm : BoardMap) : Prop :=
  ∀ i ∈ bm.unsolved, bm.squares.getD i 0 &&&
    (bm.rows.getD (rowIndex i) 0 ||| bm.columns.getD (columnIndex i) 0 |||
      bm.blocks.getD (blockIndex i) 0) = 0

instance (bm : BoardMap) : Decidable (PropFix bm) := by
  unfold PropFix
  infer_instance

/-- Completeness invariant: for any full solution compatible with the
current board, the solution's symbol at each empty cell is still a
candidate in that cell's mask. -/
def MaskComplete (bm : BoardMap) : Prop :=
  ∀ s, IsSolutionOf s bm.board → ∀ i < 81, bm.board.getD i '.' = '.' →
    (bm.squares.getD i 0).testBit ((s.getD i '.').toNat - 49) = true

lemma digit_testBit_511 : ∀ c ∈ digitChars, Nat.testBit 511 (c.toNat - 49) = true := by
  decide

lemma digit_val_lt {c : Char} (hc : c ∈ digitChars) : c.toNat - 49 < 9 := by
  fin_cases hc <;> decide

lemma digitChar_val (b : Nat) (hb : b < 9) : (digitChar b).toNat - 49 = b := by
  interval_cases b <;> decide

/-- A mask bit below 9 of a filled cell's singleton mask names its symbol. -/
lemma filled_mask_bit {bm : BoardMap} (h : SInv bm) {i b : Nat} (hi : i < 81)
    (hb : b < 9) (hne : bm.board.getD i '.' ≠ '.') :
    ((bm.squares.getD i 0).testBit b = true ↔ bm.board.getD i '.' = digitChar b) := by
  have hc : bm.board.getD i '.' ∈ digitChars := (h.wf i hi).resolve_left hne
  rw [h.sq_filled i hi hne]
  exact charMask_testBit _ hc b hb

lemma inv_of_mkBoardMap {g : List Char} (hwf : WellFormedInput g)
    (hval : ValidPartialBoard g) : SInv (mkBoardMap g) := by
  obtain ⟨hb, hsl, hrl, hcl, hbl, hu, hsp, hsr, hrb, hcb, hbb⟩ := mkBoardMap_inv g
  generalize hM : mkBoardMap g = M at hb hsl hrl hcl hbl hu hsp hsr hrb hcb hbb ⊢
  have hwfc : ∀ i < 81, g.getD i '.' = '.' ∨ g.getD i '.' ∈ digitChars := hwf.2
  have hsq : ∀ i < 81, M.squares.getD i 0 < 512 := by
    intro i hi
    rw [hsp i hi]
    by_cases hd : g.getD i '.' = '.'
    · rw [if_pos hd]; norm_num
    · rw [if_neg hd]
      exact charMask_lt _ ((hwfc i hi).resolve_left hd)
  have rows_bit9 : ∀ k < 9, ∀ b, 9 ≤ b → (M.rows.getD k 0).testBit b = false := by
    intro k hk b hb
    rw [Bool.eq_false_iff]
    intro htrue
    obtain ⟨i, hi, _, hne, hbit⟩ := (hrb k hk b).mp htrue
    rw [charMask_testBit_ge ((hwfc i hi).resolve_left hne) hb] at hbit
    exact Bool.false_ne_true hbit
  have cols_bit9 : ∀ k < 9, ∀ b, 9 ≤ b → (M.columns.getD k 0).testBit b = false := by
    intro k hk b hb
    rw [Bool.eq_false_iff]
    intro htrue
    obtain ⟨i, hi, _, hne, hbit⟩ := (hcb k hk b).mp htrue
    rw [charMask_testBit_ge ((hwfc i hi).resolve_left hne) hb] at hbit
    exact Bool.false_ne_true hbit
  have blocks_bit9 : ∀ k < 9, ∀ b, 9 ≤ b → (M.blocks.getD k 0).testBit b = false := by
    intro k hk b hb
    rw [Bool.eq_false_iff]
    intro htrue
    obtain ⟨i, hi, _, hne, hbit⟩ := (hbb k hk b).mp htrue
    rw [charMask_testBit_ge ((hwfc i hi).resolve_left hne) hb] at hbit
    exact Bool.false_ne_true hbit
  have hwfM : ∀ i < 81, M.board.getD i '.' = '.' ∨ M.board.getD i '.' ∈ digitChars := by
    rw [hb]; exact hwfc
  have hvalM : ValidPartialBoard M.board := by rw [hb]; exact hval
  refine ⟨by rw [hb]; exact hwf.1, hsl, hrl, hcl, hbl, hwfM,
    hsq, ?_, ?_, ?_, ?_, ?_, ?_, ?_, ?_, ?_, ?_, hvalM⟩
  · intro k hk
    have hlt2 := Nat.lt_pow_two_of_testBit _ (fun b hbge => rows_bit9 k hk b hbge)
    have h512 : (2:Nat) ^ 9 = 512 := by norm_num
    rw [h512] at hlt2
    exact hlt2
  · intro k hk
    have hlt2 := Nat.lt_pow_two_of_testBit _ (fun b hbge => cols_bit9 k hk b hbge)
    have h512 : (2:Nat) ^ 9 = 512 := by norm_num
    rw [h512] at hlt2
    exact hlt2
  · intro k hk
    have hlt2 := Nat.lt_pow_two_of_testBit _ (fun b hbge => blocks_bit9 k hk b hbge)
    have h512 : (2:Nat) ^ 9 = 512 := by norm_num
    rw [h512] at hlt2
    exact hlt2
  · rw [hu]
    exact ((List.sorted_lt_range 81).filter _).imp fun hlt => hlt
  · intro i hi
    rw [hu] at hi
    exact List.mem_range.mp (List.mem_filter.mp hi).1
  · intro i hi
    rw [hb, hu, List.mem_filter, List.mem_range]
    constructor
    · intro ⟨_, hp⟩; exact beq_iff_eq.mp hp
    · intro hd; exact ⟨hi, beq_iff_eq.mpr hd⟩
  · intro i hi hne
    rw [hb] at hne ⊢
    rw [hsp i hi, if_neg hne]
  · intro k hk b hb9
    rw [hb, hrb k hk b]
    constructor
    · rintro ⟨i, hi, hik, hne, hbit⟩
      exact ⟨i, hi, hik,
        (charMask_testBit _ ((hwfc i hi).resolve_left hne) b hb9).mp hbit⟩
    · rintro ⟨i, hi, hik, hchar⟩
      have hne : g.getD i '.' ≠ '.' := by
        rw [hchar]; exact digit_ne_dot _ (digitChar_mem b hb9)
      exact ⟨i, hi, hik, hne,
        (charMask_testBit _ ((hwfc i hi).resolve_left hne) b hb9).mpr hchar⟩
  · intro k hk b hb9
    rw [hb, hcb k hk b]
    constructor
    · rintro ⟨i, hi, hik, hne, hbit⟩
      exact ⟨i, hi, hik,
        (charMask_testBit _ ((hwfc i hi).resolve_left hne) b hb9).mp hbit⟩
    · rintro ⟨i, hi, hik, hchar⟩
      have hne : g.getD i '.' ≠ '.' := by
        rw [hchar]; exact digit_ne_dot _ (digitChar_mem b hb9)
      exact ⟨i, hi, hik, hne,
        (charMask_testBit _ ((hwfc i hi).resolve_left hne) b hb9).mpr hchar⟩
  · intro k hk b hb9
    rw [hb, hbb k hk b]
    constructor
    · rintro ⟨i, hi, hik, hne, hbit⟩
      exact ⟨i, hi, hik,
        (charMask_testBit _ ((hwfc i hi).resolve_left hne) b hb9).mp hbit⟩
    · rintro ⟨i, hi, hik, hchar⟩
      have hne : g.getD i '.' ≠ '.' := by
        rw [hchar]; exact digit_ne_dot _ (digitChar_mem b hb9)
      exact ⟨i, hi, hik, hne,
        (charMask_testBit _ ((hwfc i hi).resolve_left hne) b hb9).mpr hchar⟩

lemma maskComplete_of_mkBoardMap {g : List Char} (hwf : WellFormedInput g) :
    MaskComplete (mkBoardMap g) := by
  obtain ⟨hb, hsl, hrl, hcl, hbl, hu, hsp, hsr, hrb, hcb, hbb⟩ := mkBoardMap_inv g
  intro s hs i hi hdot
  rw [hb] at hdot
  rw [hsp i hi, if_pos hdot]
  exact digit_testBit_511 _ (hs.2.1 i hi)

/-! ### The propagation pass: invariant preservation through `reduceStep` -/

lemma digitChar_roundtrip : ∀ c ∈ digitChars, digitChar (c.toNat - 49) = c := by
  decide

lemma toChar_singleton : ∀ m < 512, toChar m ≠ '.' →
    (charMask (toChar m) = m ∧ toChar m ∈ digitChars ∧ bitCount m = 1) := by
  decide

lemma or_lt_512 {a b : Nat} (ha : a < 512) (hb : b < 512) : (a ||| b) < 512 := by
  have h512 : (512 : Nat) = 2 ^ 9 := rfl
  rw [h512] at ha hb ⊢
  exact Nat.or_lt_two_pow ha hb

/-- Effect of a commit (`board[i] = c` plus folding `charMask c` into one
group-mask table) on the per-bit characterization of that table.  `f` is
the group-index map (`rowIndex`, `columnIndex` or `blockIndex`). -/
lemma groupMask_update_bit {board : List Char} {gl : List Nat} {f : Nat → Nat}
    {index : Nat} {c : Char} (hblen : board.length = 81)
    (hglen : gl.length = 9) (hf : ∀ i < 81, f i < 9) (hidx : index < 81)
    (hdot : board.getD index '.' = '.') (hc : c ∈ digitChars)
    (hbit : ∀ k < 9, ∀ b < 9, ((gl.getD k 0).testBit b = true ↔
      ∃ i < 81, f i = k ∧ board.getD i '.' = digitChar b)) :
    ∀ k < 9, ∀ b < 9,
      (((gl.set (f index) (gl.getD (f index) 0 ||| charMask c)).getD k 0).testBit b
          = true ↔
        ∃ i < 81, f i = k ∧ (board.set index c).getD i '.' = digitChar b) := by
  intro k hk b hb
  by_cases hkf : k = f index
  · subst hkf
    rw [getD_set_self (by rw [hglen]; exact hf index hidx), Nat.testBit_or]
    constructor
    · intro hor
      rcases Bool.or_eq_true_iff.mp hor with h1 | h1
      · obtain ⟨i, hi, hik, hchar⟩ := (hbit _ (hf index hidx) b hb).mp h1
        have hne : i ≠ index := by
          intro he; subst he
          rw [hchar] at hdot
          exact digit_ne_dot _ (digitChar_mem b hb) hdot
        exact ⟨i, hi, hik, by rw [getD_set_ne _ _ (fun he => hne he.symm)]; exact hchar⟩
      · refine ⟨index, hidx, rfl, ?_⟩
        rw [getD_set_self (by omega)]
        exact ((charMask_testBit c hc b hb).mp h1).symm ▸ rfl
    · rintro ⟨i, hi, hik, hchar⟩
      by_cases hii : i = index
      · subst hii
        rw [getD_set_self (by omega)] at hchar
        exact Bool.or_eq_true_iff.mpr
          (Or.inr ((charMask_testBit c hc b hb).mpr hchar))
      · rw [getD_set_ne _ _ (fun he => hii he.symm)] at hchar
        exact Bool.or_eq_true_iff.mpr
          (Or.inl ((hbit _ (hf index hidx) b hb).mpr ⟨i, hi, hik, hchar⟩))
  · rw [getD_set_ne _ _ (fun he => hkf he.symm), hbit k hk b hb]
    constructor
    · rintro ⟨i, hi, hik, hchar⟩
      have hne : i ≠ index := by
        intro he; subst he; exact hkf hik.symm
      exact ⟨i, hi, hik, by rw [getD_set_ne _ _ (fun he => hne he.symm)]; exact hchar⟩
    · rintro ⟨i, hi, hik, hchar⟩
      have hne : i ≠ index := by
        intro he; subst he; exact hkf hik.symm
      rw [getD_set_ne _ _ (fun he => hne he.symm)] at hchar
      exact ⟨i, hi, hik, hchar⟩

/-- Invariant of the intermediate states of one `reduceOptions` pass.
`bm0` is the state at the start of the pass, `pre` the already-visited
prefix of `bm0.unsolved`, `st` the fold accumulator. -/
structure PassInv (bm0 : BoardMap) (pre : List Nat)
    (st : BoardMap × List Nat × Nat) : Prop where
  p_uns : st.1.unsolved = bm0.unsolved
  p_blen : st.1.board.length = 81
  p_slen : st.1.squares.length = 81
  p_rlen : st.1.rows.length = 9
  p_clen : st.1.columns.length = 9
  p_klen : st.1.blocks.length = 9
  p_wf : ∀ i < 81, st.1.board.getD i '.' = '.' ∨ st.1.board.getD i '.' ∈ digitChars
  p_sqlt : ∀ i < 81, st.1.squares.getD i 0 < 512
  p_rlt : ∀ k < 9, st.1.rows.getD k 0 < 512
  p_clt : ∀ k < 9, st.1.columns.getD k 0 < 512
  p_klt : ∀ k < 9, st.1.blocks.getD k 0 < 512
  p_sqsub : ∀ i < 81, ∀ b, (st.1.squares.getD i 0).testBit b = true →
    (bm0.squares.getD i 0).testBit b = true
  p_pending : ∀ i ∈ bm0.unsolved, i ∉ pre → st.1.board.getD i '.' = '.'
  p_squ : ∀ i, i ∉ pre → st.1.squares.getD i 0 = bm0.squares.getD i 0
  p_mem : ∀ i < 81, (i ∈ bm0.unsolved ↔
    (st.1.board.getD i '.' = '.' ∨ i ∈ st.2.1))
  p_solved : ∀ i ∈ st.2.1, st.1.board.getD i '.' ≠ '.' ∧ i ∈ pre
  p_schanged : ∀ i ∈ st.2.1, st.1.squares.getD i 0 ≠ bm0.squares.getD i 0
  p_changed : ∀ i < 81, st.1.board.getD i '.' ≠ bm0.board.getD i '.' → i ∈ st.2.1
  p_filled : ∀ i < 81, st.1.board.getD i '.' ≠ '.' →
    st.1.squares.getD i 0 = charMask (st.1.board.getD i '.')
  p_rbit : ∀ k < 9, ∀ b < 9, ((st.1.rows.getD k 0).testBit b = true ↔
    ∃ i < 81, rowIndex i = k ∧ st.1.board.getD i '.' = digitChar b)
  p_cbit : ∀ k < 9, ∀ b < 9, ((st.1.columns.getD k 0).testBit b = true ↔
    ∃ i < 81, columnIndex i = k ∧ st.1.board.getD i '.' = digitChar b)
  p_kbit : ∀ k < 9, ∀ b < 9, ((st.1.blocks.getD k 0).testBit b = true ↔
    ∃ i < 81, blockIndex i = k ∧ st.1.board.getD i '.' = digitChar b)
  p_valid : ValidPartialBoard st.1.board
  p_ext : ∀ i < 81, bm0.board.getD i '.' ≠ '.' →
    st.1.board.getD i '.' = bm0.board.getD i '.'
  p_count : st.2.2 = (pre.filter fun i =>
    !(st.1.squares.getD i 0 == bm0.squares.getD i 0)).length
  p_soleq : ∀ s, IsSolutionOf s st.1.board ↔ IsSolutionOf s bm0.board
  p_mask : MaskComplete st.1

/-- At the start of the pass the invariant holds trivially. -/
lemma passInv_init {bm0 : BoardMap} (h : SInv bm0) (hmc : MaskComplete bm0) :
    PassInv bm0 [] (bm0, [], 0) := by
  refine ⟨rfl, h.board_len, h.sq_len, h.rows_len, h.cols_len, h.blocks_len,
    h.wf, h.sq_lt, h.rows_lt, h.cols_lt, h.blocks_lt, ?_, ?_, ?_, ?_, ?_, ?_, ?_,
    h.sq_filled, h.rows_bit, h.cols_bit, h.blocks_bit, h.valid, ?_, rfl,
    fun s => Iff.rfl, hmc⟩
  · intro i _ b hb; exact hb
  · intro i hi _
    exact (h.uns_mem i (h.uns_lt i hi)).mp hi
  · intro i _; rfl
  · intro i hi
    rw [h.uns_mem i hi]
    constructor
    · intro hd; exact Or.inl hd
    · rintro (hd | hmem)
      · exact hd
      · exact absurd hmem (List.not_mem_nil i)
  · intro i hi; exact absurd hi (List.not_mem_nil i)
  · intro i hi; exact absurd hi (List.not_mem_nil i)
  · intro i _ hne; exact absurd rfl hne
  · intro i _ _; rfl

lemma sameGroup_symm {i j : Nat} (h : sameGroup i j) : sameGroup j i := by
  rcases h with h1 | h1 | h1
  · exact Or.inl h1.symm
  · exact Or.inr (Or.inl h1.symm)
  · exact Or.inr (Or.inr h1.symm)

/-- The mask left for cell `index` after the three `removePossibilities`
calls of one `reduceOptions` iteration. -/
def cellMask3 (bm : BoardMap) (index : Nat) : Nat :=
  bm.squares.getD index 0 &&& (65535 ^^^ bm.rows.getD (rowIndex index) 0) &&&
    (65535 ^^^ bm.columns.getD (columnIndex index) 0) &&&
    (65535 ^^^ bm.blocks.getD (blockIndex index) 0)

/-- Normal form of one `reduceOptions` loop iteration. -/
lemma reduceStep_eq (bm : BoardMap) (solved : List Nat) (r : Nat) (index : Nat)
    (hslen : bm.squares.length = 81) (hidx : index < 81) :
    reduceStep (bm, solved, r) index =
      if bm.squares.getD index 0 ≠ cellMask3 bm index then
        if toChar (cellMask3 bm index) ≠ '.' then
          (updateGroups { bm with
              board := bm.board.set index (toChar (cellMask3 bm index)),
              squares := bm.squares.set index (cellMask3 bm index) } index,
            solved ++ [index], r + 1)
        else ({ bm with squares := bm.squares.set index (cellMask3 bm index) },
          solved, r + 1)
      else ({ bm with squares := bm.squares.set index (cellMask3 bm index) },
        solved, r)
    := by
  have hset : ∀ v : Nat, (bm.squares.set index v).getD index 0 = v :=
    fun v => getD_set_self (by omega)
  unfold reduceStep removePossibilities cellMask3
  simp only [hset, List.set_set]

lemma passInv_step {bm0 : BoardMap} {pre rem : List Nat} {index : Nat}
    {st : BoardMap × List Nat × Nat}
    (h0 : SInv bm0)
    (hsplit : bm0.unsolved = pre ++ index :: rem)
    (h : PassInv bm0 pre st) :
    PassInv bm0 (pre ++ [index]) (reduceStep st index) := by
  obtain ⟨bm, solved, r⟩ := st
  have hmem0 : index ∈ bm0.unsolved := by rw [hsplit]; simp
  have hidx : index < 81 := h0.uns_lt index hmem0
  have hnodup : bm0.unsolved.Nodup := h0.uns_sorted.nodup
  have hnotpre : index ∉ pre := by
    rw [hsplit, List.nodup_append] at hnodup
    intro hc
    exact hnodup.2.2 hc (List.mem_cons_self index rem)
  have hdot : bm.board.getD index '.' = '.' := h.p_pending index hmem0 hnotpre
  have hsq0 : bm.squares.getD index 0 = bm0.squares.getD index 0 :=
    h.p_squ index hnotpre
  have hdot0 : bm0.board.getD index '.' = '.' := (h0.uns_mem index hidx).mp hmem0
  have hm3sub : ∀ b, (cellMask3 bm index).testBit b = true →
      (bm.squares.getD index 0).testBit b = true := by
    intro b hb
    unfold cellMask3 at hb
    simp only [Nat.testBit_and, Bool.and_eq_true] at hb
    exact hb.1.1.1
  have hm3lt : cellMask3 bm index < 512 := submask_lt (h.p_sqlt index hidx) hm3sub
  have hm3bit : ∀ b, b < 16 → ((cellMask3 bm index).testBit b =
      ((bm.squares.getD index 0).testBit b &&
       !((bm.rows.getD (rowIndex index) 0).testBit b) &&
       !((bm.columns.getD (columnIndex index) 0).testBit b) &&
       !((bm.blocks.getD (blockIndex index) 0).testBit b))) := by
    intro b hb
    unfold cellMask3
    rw [testBit_removal hb, testBit_removal hb, testBit_removal hb]
  have hkeep : ∀ s, IsSolutionOf s bm.board →
      (cellMask3 bm index).testBit ((s.getD index '.').toNat - 49) = true := by
    intro s hs
    have hsd : s.getD index '.' ∈ digitChars := hs.2.1 index hidx
    have hb9 : (s.getD index '.').toNat - 49 < 9 := digit_val_lt hsd
    have hm0bit : (bm.squares.getD index 0).testBit
        ((s.getD index '.').toNat - 49) = true := h.p_mask s hs index hidx hdot
    have hgroup : ∀ k, (∀ j < 81, (rowIndex j = k ∧ rowIndex index = k ∨
          columnIndex j = k ∧ columnIndex index = k ∨
          blockIndex j = k ∧ blockIndex index = k) →
        bm.board.getD j '.' = digitChar ((s.getD index '.').toNat - 49) → False) := by
      intro k j hj hsg hjc
      have hsj : s.getD j '.' = bm.board.getD j '.' :=
        hs.2.2.2 j hj (by rw [hjc]; exact digit_ne_dot _ (digitChar_mem _ hb9))
      have hji : j ≠ index := by
        intro he
        subst he
        rw [hjc] at hdot
        exact digit_ne_dot _ (digitChar_mem _ hb9) hdot
      have hvaleq : s.getD j '.' = s.getD index '.' := by
        rw [hsj, hjc, digitChar_roundtrip _ hsd]
      have hsame : sameGroup j index := by
        rcases hsg with ⟨h1, h2⟩ | ⟨h1, h2⟩ | ⟨h1, h2⟩
        · exact Or.inl (h1.trans h2.symm)
        · exact Or.inr (Or.inl (h1.trans h2.symm))
        · exact Or.inr (Or.inr (h1.trans h2.symm))
      exact hs.2.2.1 j hj index hidx hji hsame
        (by rw [hvaleq]; exact digit_ne_dot _ hsd)
        (digit_ne_dot _ hsd) hvaleq
    have hrow : (bm.rows.getD (rowIndex index) 0).testBit
        ((s.getD index '.').toNat - 49) = false := by
      rw [Bool.eq_false_iff]
      intro htrue
      obtain ⟨j, hj, hjk, hjc⟩ :=
        (h.p_rbit (rowIndex index) (rowIndex_lt hidx) _ hb9).mp htrue
      exact hgroup (rowIndex index) j hj (Or.inl ⟨hjk, rfl⟩) hjc
    have hcol : (bm.columns.getD (columnIndex index) 0).testBit
        ((s.getD index '.').toNat - 49) = false := by
      rw [Bool.eq_false_iff]
      intro htrue
      obtain ⟨j, hj, hjk, hjc⟩ :=
        (h.p_cbit (columnIndex index) (columnIndex_lt index) _ hb9).mp htrue
      exact hgroup (columnIndex index) j hj (Or.inr (Or.inl ⟨hjk, rfl⟩)) hjc
    have hblo : (bm.blocks.getD (blockIndex index) 0).testBit
        ((s.getD index '.').toNat - 49) = false := by
      rw [Bool.eq_false_iff]
      intro htrue
      obtain ⟨j, hj, hjk, hjc⟩ :=
        (h.p_kbit (blockIndex index) (blockIndex_lt hidx) _ hb9).mp htrue
      exact hgroup (blockIndex index) j hj (Or.inr (Or.inr ⟨hjk, rfl⟩)) hjc
    rw [hm3bit _ (by omega), hm0bit, hrow, hcol, hblo]
    rfl
  rw [reduceStep_eq bm solved r index h.p_slen hidx]
  have hA_self : ((bm.squares.set index (cellMask3 bm index)).getD index 0) =
      cellMask3 bm index := getD_set_self (by rw [h.p_slen]; omega)
  have hA_other : ∀ j, j ≠ index →
      ((bm.squares.set index (cellMask3 bm index)).getD j 0) =
        bm.squares.getD j 0 :=
    fun j hj => getD_set_ne _ _ (fun he => hj he.symm)
  have hcount_pre : ∀ sq' : List Nat,
      (∀ j, j ≠ index → sq'.getD j 0 = bm.squares.getD j 0) →
      (pre.filter fun i => !(sq'.getD i 0 == bm0.squares.getD i 0)) =
        (pre.filter fun i => !(bm.squares.getD i 0 == bm0.squares.getD i 0)) := by
    intro sq' hother
    apply List.filter_congr
    intro i hip
    rw [hother i (fun he => hnotpre (he ▸ hip))]
  -- the two squares-only cases share everything except the counter
  have passA : ∀ r' : Nat,
      r' = ((pre ++ [index]).filter fun i =>
        !((bm.squares.set index (cellMask3 bm index)).getD i 0 ==
          bm0.squares.getD i 0)).length →
      PassInv bm0 (pre ++ [index])
        ({ bm with squares := bm.squares.set index (cellMask3 bm index) },
          solved, r') := by
    intro r' hr'
    refine ⟨h.p_uns, h.p_blen, by simp [h.p_slen], h.p_rlen, h.p_clen, h.p_klen,
      h.p_wf, ?_, h.p_rlt, h.p_clt, h.p_klt, ?_, ?_, ?_, h.p_mem, ?_, ?_,
      h.p_changed, ?_, h.p_rbit, h.p_cbit, h.p_kbit, h.p_valid, h.p_ext, hr',
      h.p_soleq, ?_⟩
    · intro i hi
      by_cases hii : i = index
      · subst hii; rw [hA_self]; exact hm3lt
      · rw [hA_other i hii]; exact h.p_sqlt i hi
    · intro i hi b hbit
      by_cases hii : i = index
      · subst hii
        rw [hA_self] at hbit
        rw [← hsq0]
        exact hm3sub b hbit
      · rw [hA_other i hii] at hbit
        exact h.p_sqsub i hi b hbit
    · intro i hiu hinp
      have hinp2 : i ∉ pre := fun hc => hinp (by simp [hc])
      exact h.p_pending i hiu hinp2
    · intro i hinp
      have hinp2 : i ∉ pre := fun hc => hinp (by simp [hc])
      have hii : i ≠ index := fun he => hinp (by simp [he])
      rw [hA_other i hii]
      exact h.p_squ i hinp2
    · intro i hisol
      obtain ⟨hb1, hb2⟩ := h.p_solved i hisol
      exact ⟨hb1, by simp [hb2]⟩
    · intro i hisol
      have hipre := (h.p_solved i hisol).2
      have hii : i ≠ index := fun he => hnotpre (he ▸ hipre)
      rw [hA_other i hii]
      exact h.p_schanged i hisol
    · intro i hi hne
      by_cases hii : i = index
      · subst hii; exact absurd hdot hne
      · rw [hA_other i hii]; exact h.p_filled i hi hne
    · intro s hs i hi hidot
      by_cases hii : i = index
      · subst hii
        rw [hA_self]
        exact hkeep s hs
      · rw [hA_other i hii]
        exact h.p_mask s hs i hi hidot
  by_cases hch : bm.squares.getD index 0 ≠ cellMask3 bm index
  · rw [if_pos hch]
    by_cases hsolv : toChar (cellMask3 bm index) ≠ '.'
    case neg =>
      rw [if_neg hsolv]
      apply passA
      have hpc : r = (pre.filter fun i =>
          !(bm.squares.getD i 0 == bm0.squares.getD i 0)).length := h.p_count
      rw [List.filter_append, List.length_append, hcount_pre _ hA_other, ← hpc]
      have : ((([index].filter fun i =>
          !((bm.squares.set index (cellMask3 bm index)).getD i 0 ==
            bm0.squares.getD i 0))).length) = 1 := by
        rw [List.filter_cons]
        rw [if_pos]
        · simp
        · rw [hA_self]
          simp only [Bool.not_eq_true']
          rw [beq_eq_false_iff_ne]
          rw [← hsq0]
          exact fun he => hch he.symm
      omega
    case pos =>
      rw [if_pos hsolv]
      obtain ⟨hcm, hcd, hbc1⟩ := toChar_singleton _ hm3lt hsolv
      set c := toChar (cellMask3 bm index) with hc_def
      have hcne : c ≠ '.' := hsolv
      have hbv9 : c.toNat - 49 < 9 := digit_val_lt hcd
      have hm3bv : (cellMask3 bm index).testBit (c.toNat - 49) = true := by
        rw [← hcm]
        exact charMask_testBit_self c hcd
      have hb_self : (bm.board.set index c).getD index '.' = c :=
        getD_set_self (by rw [h.p_blen]; omega)
      have hb_other : ∀ j, j ≠ index →
          (bm.board.set index c).getD j '.' = bm.board.getD j '.' :=
        fun j hj => getD_set_ne _ _ (fun he => hj he.symm)
      have hBboard : (updateGroups { bm with
          board := bm.board.set index c,
          squares := bm.squares.set index (cellMask3 bm index) } index).board =
          bm.board.set index c := rfl
      have hBsq : (updateGroups { bm with
          board := bm.board.set index c,
          squares := bm.squares.set index (cellMask3 bm index) } index).squares =
          bm.squares.set index (cellMask3 bm index) := rfl
      have hBrows : (updateGroups { bm with
          board := bm.board.set index c,
          squares := bm.squares.set index (cellMask3 bm index) } index).rows =
          bm.rows.set (rowIndex index)
            (bm.rows.getD (rowIndex index) 0 ||| charMask c) := by
        show bm.rows.set (rowIndex index) (bm.rows.getD (rowIndex index) 0 |||
          (bm.squares.set index (cellMask3 bm index)).getD index 0) = _
        rw [hA_self, hcm]
      have hBcols : (updateGroups { bm with
          board := bm.board.set index c,
          squares := bm.squares.set index (cellMask3 bm index) } index).columns =
          bm.columns.set (columnIndex index)
            (bm.columns.getD (columnIndex index) 0 ||| charMask c) := by
        show bm.columns.set (columnIndex index) (bm.columns.getD (columnIndex index) 0 |||
          (bm.squares.set index (cellMask3 bm index)).getD index 0) = _
        rw [hA_self, hcm]
      have hBblocks : (updateGroups { bm with
          board := bm.board.set index c,
          squares := bm.squares.set index (cellMask3 bm index) } index).blocks =
          bm.blocks.set (blockIndex index)
            (bm.blocks.getD (blockIndex index) 0 ||| charMask c) := by
        show bm.blocks.set (blockIndex index) (bm.blocks.getD (blockIndex index) 0 |||
          (bm.squares.set index (cellMask3 bm index)).getD index 0) = _
        rw [hA_self, hcm]
      have hnew_no_conflict : ∀ j < 81, j ≠ index → sameGroup index j →
          bm.board.getD j '.' ≠ c := by
        intro j hj hji hsg heq
        have hjc : bm.board.getD j '.' = digitChar (c.toNat - 49) := by
          rw [heq, digitChar_roundtrip c hcd]
        rcases hsg with hrow | hcol | hblo
        · have hgb : (bm.rows.getD (rowIndex index) 0).testBit (c.toNat - 49) = true :=
            (h.p_rbit (rowIndex index) (rowIndex_lt hidx) _ hbv9).mpr
              ⟨j, hj, hrow.symm, hjc⟩
          have hx := hm3bit (c.toNat - 49) (by omega)
          rw [hm3bv, hgb] at hx
          simp at hx
        · have hgb : (bm.columns.getD (columnIndex index) 0).testBit (c.toNat - 49) = true :=
            (h.p_cbit (columnIndex index) (columnIndex_lt index) _ hbv9).mpr
              ⟨j, hj, hcol.symm, hjc⟩
          have hx := hm3bit (c.toNat - 49) (by omega)
          rw [hm3bv, hgb] at hx
          simp at hx
        · have hgb : (bm.blocks.getD (blockIndex index) 0).testBit (c.toNat - 49) = true :=
            (h.p_kbit (blockIndex index) (blockIndex_lt hidx) _ hbv9).mpr
              ⟨j, hj, hblo.symm, hjc⟩
          have hx := hm3bit (c.toNat - 49) (by omega)
          rw [hm3bv, hgb] at hx
          simp at hx
      have hsol_fwd : ∀ s, IsSolutionOf s (bm.board.set index c) →
          IsSolutionOf s bm.board := by
        rintro s ⟨hl, hcomp, hsval, hext⟩
        refine ⟨hl, hcomp, hsval, ?_⟩
        intro i hi hne
        have hii : i ≠ index := fun he => by subst he; exact hne hdot
        rw [← hb_other i hii]
        exact hext i hi (by rw [hb_other i hii]; exact hne)
      have hsol_bwd : ∀ s, IsSolutionOf s bm.board →
          IsSolutionOf s (bm.board.set index c) := by
        intro s hs
        obtain ⟨hl, hcomp, hsval, hext⟩ := hs
        refine ⟨hl, hcomp, hsval, ?_⟩
        intro i hi hne
        by_cases hii : i = index
        · rw [hii, hb_self]
          have hbit := hkeep s ⟨hl, hcomp, hsval, hext⟩
          rw [← hcm] at hbit
          have hcd2 := (charMask_testBit c hcd _
            (digit_val_lt (hcomp index hidx))).mp hbit
          rw [hcd2, digitChar_roundtrip _ (hcomp index hidx)]
        · rw [hb_other i hii] at hne ⊢
          exact hext i hi hne
      have hvalid2 : ValidPartialBoard (bm.board.set index c) := by
        intro i hi j hj hij hsg hine hjne
        by_cases hii : i = index
        · have hjj : j ≠ index := fun he => hij (hii.trans he.symm)
          rw [hii, hb_self, hb_other j hjj]
          intro heq
          exact hnew_no_conflict j hj hjj
            (by rw [← hii]; exact hsg) heq.symm
        · by_cases hjj : j = index
          · rw [hb_other i hii, hjj, hb_self]
            intro heq
            exact hnew_no_conflict i hi hii
              (sameGroup_symm (by rw [← hjj]; exact hsg)) heq
          · rw [hb_other i hii] at hine ⊢
            rw [hb_other j hjj] at hjne ⊢
            exact h.p_valid i hi j hj hij hsg hine hjne
      refine ⟨h.p_uns, ?_, ?_, ?_, ?_, ?_, ?_, ?_, ?_, ?_, ?_, ?_, ?_, ?_, ?_,
        ?_, ?_, ?_, ?_, ?_, ?_, ?_, ?_, ?_, ?_, ?_, ?_⟩
      · rw [hBboard, List.length_set]; exact h.p_blen
      · rw [hBsq, List.length_set]; exact h.p_slen
      · rw [hBrows, List.length_set]; exact h.p_rlen
      · rw [hBcols, List.length_set]; exact h.p_clen
      · rw [hBblocks, List.length_set]; exact h.p_klen
      · intro i hi
        rw [hBboard]
        by_cases hii : i = index
        · subst hii; rw [hb_self]; exact Or.inr hcd
        · rw [hb_other i hii]; exact h.p_wf i hi
      · intro i hi
        rw [hBsq]
        by_cases hii : i = index
        · subst hii; rw [hA_self]; exact hm3lt
        · rw [hA_other i hii]; exact h.p_sqlt i hi
      · intro k hk
        rw [hBrows]
        by_cases hkk : k = rowIndex index
        · subst hkk
          rw [getD_set_self (by rw [h.p_rlen]; exact rowIndex_lt hidx)]
          exact or_lt_512 (h.p_rlt _ (rowIndex_lt hidx)) (charMask_lt c hcd)
        · rw [getD_set_ne _ _ (fun he => hkk he.symm)]; exact h.p_rlt k hk
      · intro k hk
        rw [hBcols]
        by_cases hkk : k = columnIndex index
        · subst hkk
          rw [getD_set_self (by rw [h.p_clen]; exact columnIndex_lt index)]
          exact or_lt_512 (h.p_clt _ (columnIndex_lt index)) (charMask_lt c hcd)
        · rw [getD_set_ne _ _ (fun he => hkk he.symm)]; exact h.p_clt k hk
      · intro k hk
        rw [hBblocks]
        by_cases hkk : k = blockIndex index
        · subst hkk
          rw [getD_set_self (by rw [h.p_klen]; exact blockIndex_lt hidx)]
          exact or_lt_512 (h.p_klt _ (blockIndex_lt hidx)) (charMask_lt c hcd)
        · rw [getD_set_ne _ _ (fun he => hkk he.symm)]; exact h.p_klt k hk
      · intro i hi b hbit
        rw [hBsq] at hbit
        by_cases hii : i = index
        · subst hii
          rw [hA_self] at hbit
          rw [← hsq0]
          exact hm3sub b hbit
        · rw [hA_other i hii] at hbit
          exact h.p_sqsub i hi b hbit
      · intro i hiu hinp
        have hinp2 : i ∉ pre := fun hc => hinp (by simp [hc])
        have hii : i ≠ index := fun he => hinp (by simp [he])
        rw [hBboard, hb_other i hii]
        exact h.p_pending i hiu hinp2
      · intro i hinp
        have hinp2 : i ∉ pre := fun hc => hinp (by simp [hc])
        have hii : i ≠ index := fun he => hinp (by simp [he])
        rw [hBsq, hA_other i hii]
        exact h.p_squ i hinp2
      · intro i hi
        rw [hBboard, h.p_mem i hi]
        constructor
        · rintro (hbd | hsv)
          · by_cases hii : i = index
            · subst hii; exact Or.inr (by simp)
            · rw [← hb_other i hii] at hbd
              exact Or.inl hbd
          · exact Or.inr (by simp [hsv])
        · rintro (hbd | hsv)
          · have hii : i ≠ index := by
              intro he
              subst he
              rw [hb_self] at hbd
              exact hcne hbd
            rw [hb_other i hii] at hbd
            exact Or.inl hbd
          · rcases List.mem_append.mp hsv with hsv1 | hsv1
            · exact Or.inr hsv1
            · have : i = index := by simpa using hsv1
              subst this
              exact Or.inl hdot
      · intro i hisol
        rw [hBboard]
        rcases List.mem_append.mp hisol with hsv1 | hsv1
        · obtain ⟨hb1, hb2⟩ := h.p_solved i hsv1
          have hii : i ≠ index := fun he => hnotpre (he ▸ hb2)
          exact ⟨by rw [hb_other i hii]; exact hb1, by simp [hb2]⟩
        · have : i = index := by simpa using hsv1
          subst this
          exact ⟨by rw [hb_self]; exact hcne, by simp⟩
      · intro i hisol
        rw [hBsq]
        rcases List.mem_append.mp hisol with hsv1 | hsv1
        · have hipre := (h.p_solved i hsv1).2
          have hii : i ≠ index := fun he => hnotpre (he ▸ hipre)
          rw [hA_other i hii]
          exact h.p_schanged i hsv1
        · have hieq : i = index := by simpa using hsv1
          rw [hieq, hA_self, ← hsq0]
          exact fun he => hch he.symm
      · intro i hi hne
        rw [hBboard] at hne
        by_cases hii : i = index
        · subst hii; simp
        · rw [hb_other i hii] at hne
          exact List.mem_append.mpr (Or.inl (h.p_changed i hi hne))
      · intro i hi hne
        rw [hBboard] at hne ⊢
        rw [hBsq]
        by_cases hii : i = index
        · subst hii
          rw [hb_self] at hne ⊢
          rw [hA_self, hcm]
        · rw [hb_other i hii] at hne ⊢
          rw [hA_other i hii]
          exact h.p_filled i hi hne
      · rw [hBrows, hBboard]
        exact groupMask_update_bit h.p_blen h.p_rlen (fun i hi => rowIndex_lt hi)
          hidx hdot hcd h.p_rbit
      · rw [hBcols, hBboard]
        exact groupMask_update_bit h.p_blen h.p_clen (fun i _ => columnIndex_lt i)
          hidx hdot hcd h.p_cbit
      · rw [hBblocks, hBboard]
        exact groupMask_update_bit h.p_blen h.p_klen (fun i hi => blockIndex_lt hi)
          hidx hdot hcd h.p_kbit
      · rw [hBboard]
        exact hvalid2
      · intro i hi hne
        rw [hBboard]
        have hii : i ≠ index := fun he => by subst he; exact hne hdot0
        rw [hb_other i hii]
        exact h.p_ext i hi hne
      · show r + 1 = _
        rw [hBsq]
        have hpc : r = (pre.filter fun i =>
            !(bm.squares.getD i 0 == bm0.squares.getD i 0)).length := h.p_count
        rw [List.filter_append, List.length_append, hcount_pre _ hA_other, ← hpc]
        have hone : (([index].filter fun i =>
            !((bm.squares.set index (cellMask3 bm index)).getD i 0 ==
              bm0.squares.getD i 0)).length) = 1 := by
          rw [List.filter_cons, if_pos]
          · simp
          · rw [hA_self]
            simp only [Bool.not_eq_true']
            rw [beq_eq_false_iff_ne, ← hsq0]
            exact fun he => hch he.symm
        omega
      · intro s
        rw [hBboard]
        exact Iff.trans ⟨hsol_fwd s, hsol_bwd s⟩ (h.p_soleq s)
      · intro s hs i hi hidot
        rw [hBboard] at hidot
        have hs2 : IsSolutionOf s (bm.board.set index c) := hs
        have hii : i ≠ index := by
          intro he
          subst he
          rw [hb_self] at hidot
          exact hcne hidot
        rw [hb_other i hii] at hidot
        show ((updateGroups { bm with
          board := bm.board.set index c,
          squares := bm.squares.set index (cellMask3 bm index) } index).squares.getD
            i 0).testBit _ = true
        rw [hBsq, hA_other i hii]
        exact h.p_mask s (hsol_fwd s hs2) i hi hidot
  · rw [if_neg hch]
    apply passA
    have hpc : r = (pre.filter fun i =>
        !(bm.squares.getD i 0 == bm0.squares.getD i 0)).length := h.p_count
    have heq : bm.squares.getD index 0 = cellMask3 bm index := not_not.mp hch
    rw [List.filter_append, List.length_append, hcount_pre _ hA_other, ← hpc]
    have : ((([index].filter fun i =>
        !((bm.squares.set index (cellMask3 bm index)).getD i 0 ==
          bm0.squares.getD i 0))).length) = 0 := by
      rw [List.filter_cons]
      rw [if_neg]
      · simp
      · rw [hA_self]
        simp only [Bool.not_eq_true']
        rw [Bool.not_eq_false, beq_iff_eq]
        rw [← hsq0, ← heq]
    omega

/-! ### Folding the pass, and `reduceOptions`-level facts -/

lemma BoardMap.ext2 {x y : BoardMap} (h1 : x.board = y.board)
    (h2 : x.unsolved = y.unsolved) (h3 : x.squares = y.squares)
    (h4 : x.rows = y.rows) (h5 : x.columns = y.columns)
    (h6 : x.blocks = y.blocks) : x = y := by
  cases x; cases y; simp_all

lemma list_eq_of_getD {α : Type} (d : α) {l1 l2 : List α}
    (hlen : l1.length = l2.length)
    (hp : ∀ i, i < l1.length → l1.getD i d = l2.getD i d) : l1 = l2 := by
  refine List.ext_getElem hlen fun i h1 h2 => ?_
  have := hp i h1
  rwa [List.getD_eq_getElem l1 d h1, List.getD_eq_getElem l2 d h2] at this

lemma passInv_fold_prefix {bm0 : BoardMap} (h0 : SInv bm0) :
    ∀ (mid pre tail : List Nat) (st : BoardMap × List Nat × Nat),
      bm0.unsolved = pre ++ mid ++ tail → PassInv bm0 pre st →
      PassInv bm0 (pre ++ mid) (mid.foldl reduceStep st) := by
  intro mid
  induction mid with
  | nil => intro pre tail st _ h; simpa using h
  | cons index rest ih =>
    intro pre tail st hsplit h
    have hstep := @passInv_step bm0 pre (rest ++ tail) index st h0
      (by rw [hsplit]; simp) h
    have hres := ih (pre ++ [index]) tail (reduceStep st index)
      (by rw [hsplit]; simp) hstep
    simpa using hres

lemma reduceOptions_passInv {bm : BoardMap} (h : SInv bm) (hmc : MaskComplete bm) :
    PassInv bm bm.unsolved (bm.unsolved.foldl reduceStep (bm, [], 0)) := by
  have := passInv_fold_prefix h bm.unsolved [] [] (bm, [], 0) (by simp)
    (passInv_init h hmc)
  simpa using this

lemma reduceStep_counter_le (st : BoardMap × List Nat × Nat) (index : Nat) :
    st.2.2 ≤ (reduceStep st index).2.2 := by
  unfold reduceStep
  dsimp only
  split
  · split <;> dsimp only <;> omega
  · exact Nat.le_refl _

lemma foldl_counter_le :
    ∀ (l : List Nat) (st : BoardMap × List Nat × Nat),
      st.2.2 ≤ (l.foldl reduceStep st).2.2 := by
  intro l
  induction l with
  | nil => intro st; exact Nat.le_refl _
  | cons index rest ih =>
    intro st
    exact Nat.le_trans (reduceStep_counter_le st index) (ih (reduceStep st index))

/-- If a (partial) pass made zero reductions, nothing at all changed. -/
lemma passInv_zero_state {bm : BoardMap} (h : SInv bm) {pre : List Nat}
    {st : BoardMap × List Nat × Nat} (hp : PassInv bm pre st) (hz : st.2.2 = 0) :
    (∀ j, st.1.squares.getD j 0 = bm.squares.getD j 0) ∧ st.2.1 = [] ∧
    (∀ j, st.1.board.getD j '.' = bm.board.getD j '.') ∧
    (∀ k < 9, st.1.rows.getD k 0 = bm.rows.getD k 0) ∧
    (∀ k < 9, st.1.columns.getD k 0 = bm.columns.getD k 0) ∧
    (∀ k < 9, st.1.blocks.getD k 0 = bm.blocks.getD k 0) := by
  have hfilter : (pre.filter fun i =>
      !(st.1.squares.getD i 0 == bm.squares.getD i 0)) = [] := by
    have := hp.p_count
    rw [hz] at this
    exact List.length_eq_zero.mp this.symm
  have hsq : ∀ j, st.1.squares.getD j 0 = bm.squares.getD j 0 := by
    intro j
    by_cases hjp : j ∈ pre
    · have := List.filter_eq_nil_iff.mp hfilter j hjp
      simpa using this
    · exact hp.p_squ j hjp
  have hsolved : st.2.1 = [] := by
    rw [List.eq_nil_iff_forall_not_mem]
    intro a ha
    exact hp.p_schanged a ha (hsq a)
  have hboard : ∀ j, st.1.board.getD j '.' = bm.board.getD j '.' := by
    intro j
    by_cases hj : j < 81
    · by_contra hne
      have := hp.p_changed j hj hne
      rw [hsolved] at this
      exact absurd this (List.not_mem_nil j)
    · rw [List.getD_eq_default _ _ (by rw [hp.p_blen]; omega),
        List.getD_eq_default _ _ (by rw [h.board_len]; omega)]
  have hgroups : ∀ k < 9, st.1.rows.getD k 0 = bm.rows.getD k 0 := by
    intro k hk
    refine Nat.eq_of_testBit_eq fun b => ?_
    by_cases hb : b < 9
    · have h1 := hp.p_rbit k hk b hb
      have h2 := h.rows_bit k hk b hb
      simp only [hboard] at h1
      cases hb1 : (st.1.rows.getD k 0).testBit b <;>
        cases hb2 : (bm.rows.getD k 0).testBit b <;> simp_all
    · rw [testBit_lt_512 (hp.p_rlt k hk) (by omega),
        testBit_lt_512 (h.rows_lt k hk) (by omega)]
  have hgroupsc : ∀ k < 9, st.1.columns.getD k 0 = bm.columns.getD k 0 := by
    intro k hk
    refine Nat.eq_of_testBit_eq fun b => ?_
    by_cases hb : b < 9
    · have h1 := hp.p_cbit k hk b hb
      have h2 := h.cols_bit k hk b hb
      simp only [hboard] at h1
      cases hb1 : (st.1.columns.getD k 0).testBit b <;>
        cases hb2 : (bm.columns.getD k 0).testBit b <;> simp_all
    · rw [testBit_lt_512 (hp.p_clt k hk) (by omega),
        testBit_lt_512 (h.cols_lt k hk) (by omega)]
  have hgroupsk : ∀ k < 9, st.1.blocks.getD k 0 = bm.blocks.getD k 0 := by
    intro k hk
    refine Nat.eq_of_testBit_eq fun b => ?_
    by_cases hb : b < 9
    · have h1 := hp.p_kbit k hk b hb
      have h2 := h.blocks_bit k hk b hb
      simp only [hboard] at h1
      cases hb1 : (st.1.blocks.getD k 0).testBit b <;>
        cases hb2 : (bm.blocks.getD k 0).testBit b <;> simp_all
    · rw [testBit_lt_512 (hp.p_klt k hk) (by omega),
        testBit_lt_512 (h.blocks_lt k hk) (by omega)]
  exact ⟨hsq, hsolved, hboard, hgroups, hgroupsc, hgroupsk⟩

/-- `SInv` is preserved by one `reduceOptions` pass. -/
lemma sinv_reduceOptions {bm : BoardMap} (h : SInv bm) (hmc : MaskComplete bm) :
    SInv (reduceOptions bm).1 := by
  have hp := reduceOptions_passInv h hmc
  refine ⟨hp.p_blen, hp.p_slen, hp.p_rlen, hp.p_clen, hp.p_klen, hp.p_wf,
    hp.p_sqlt, hp.p_rlt, hp.p_clt, hp.p_klt, ?_, ?_, ?_, hp.p_filled,
    hp.p_rbit, hp.p_cbit, hp.p_kbit, hp.p_valid⟩
  · show ((bm.unsolved.foldl reduceStep (bm, [], 0)).1.unsolved.filter _).Pairwise _
    rw [hp.p_uns]
    exact h.uns_sorted.filter _
  · intro i hi
    have hi2 : i ∈ (bm.unsolved.foldl reduceStep (bm, [], 0)).1.unsolved :=
      (List.mem_filter.mp hi).1
    rw [hp.p_uns] at hi2
    exact h.uns_lt i hi2
  · intro i hi
    show i ∈ List.filter _ _ ↔ _
    rw [List.mem_filter, hp.p_uns]
    constructor
    · rintro ⟨hmem, hpred⟩
      have hnot : i ∉ (bm.unsolved.foldl reduceStep (bm, [], 0)).2.1 := by
        intro hc
        rw [Bool.not_eq_true', Bool.eq_false_iff] at hpred
        exact hpred (List.elem_iff.mpr hc)
      exact ((hp.p_mem i hi).mp hmem).resolve_right hnot
    · intro hdot
      have hnot : i ∉ (bm.unsolved.foldl reduceStep (bm, [], 0)).2.1 :=
        fun hc => (hp.p_solved i hc).1 hdot
      refine ⟨(hp.p_mem i hi).mpr (Or.inl hdot), ?_⟩
      rw [Bool.not_eq_true', Bool.eq_false_iff]
      intro hc
      exact hnot (List.elem_iff.mp hc)

lemma maskComplete_reduceOptions {bm : BoardMap} (h : SInv bm)
    (hmc : MaskComplete bm) : MaskComplete (reduceOptions bm).1 := by
  have hp := reduceOptions_passInv h hmc
  intro s hs i hi hdot
  exact hp.p_mask s hs i hi hdot

lemma reduceOptions_soleq {bm : BoardMap} (h : SInv bm) (hmc : MaskComplete bm) :
    ∀ s, IsSolutionOf s (reduceOptions bm).1.board ↔ IsSolutionOf s bm.board :=
  (reduceOptions_passInv h hmc).p_soleq

lemma reduceOptions_ext {bm : BoardMap} (h : SInv bm) (hmc : MaskComplete bm) :
    ExtendsBoard bm.board (reduceOptions bm).1.board :=
  fun i hi hne => (reduceOptions_passInv h hmc).p_ext i hi hne

lemma reduceOptions_submask {bm : BoardMap} (h : SInv bm) (hmc : MaskComplete bm) :
    ∀ i < 81, ∀ b, ((reduceOptions bm).1.squares.getD i 0).testBit b = true →
      (bm.squares.getD i 0).testBit b = true :=
  fun i hi b hb => (reduceOptions_passInv h hmc).p_sqsub i hi b hb

/-- The return value of `reduceOptions` counts exactly the visited cells
whose bitmask changed during the pass. -/
lemma reduceOptions_count_eq {bm : BoardMap} (h : SInv bm) (hmc : MaskComplete bm) :
    (reduceOptions bm).2 = (bm.unsolved.filter fun i =>
      !((reduceOptions bm).1.squares.getD i 0 == bm.squares.getD i 0)).length :=
  (reduceOptions_passInv h hmc).p_count

/-- A pass returning zero left the state completely unchanged. -/
lemma reduceOptions_zero_eq {bm : BoardMap} (h : SInv bm) (hmc : MaskComplete bm)
    (hz : (reduceOptions bm).2 = 0) : (reduceOptions bm).1 = bm := by
  have hp := reduceOptions_passInv h hmc
  obtain ⟨hsq, hsolved, hboard, hrows, hcols, hblocks⟩ := passInv_zero_state h hp hz
  have hlb : (reduceOptions bm).1.board.length = 81 := hp.p_blen
  have hls : (reduceOptions bm).1.squares.length = 81 := hp.p_slen
  have hlr : (reduceOptions bm).1.rows.length = 9 := hp.p_rlen
  have hlc : (reduceOptions bm).1.columns.length = 9 := hp.p_clen
  have hlk : (reduceOptions bm).1.blocks.length = 9 := hp.p_klen
  refine BoardMap.ext2 ?_ ?_ ?_ ?_ ?_ ?_
  · exact list_eq_of_getD '.' (by rw [hlb, h.board_len]) fun i _ => hboard i
  · show List.filter _ _ = bm.unsolved
    rw [hsolved, hp.p_uns]
    have : ∀ i ∈ bm.unsolved, (!(([] : List Nat).contains i)) = true := by
      intro i _; rfl
    exact List.filter_eq_self.mpr this
  · exact list_eq_of_getD 0 (by rw [hls, h.sq_len]) fun i _ => hsq i
  · refine list_eq_of_getD 0 (by rw [hlr, h.rows_len]) fun i hi => ?_
    exact hrows i (by rw [hlr] at hi; omega)
  · refine list_eq_of_getD 0 (by rw [hlc, h.cols_len]) fun i hi => ?_
    exact hcols i (by rw [hlc] at hi; omega)
  · refine list_eq_of_getD 0 (by rw [hlk, h.blocks_len]) fun i hi => ?_
    exact hblocks i (by rw [hlk] at hi; omega)

/-! ### Termination measure of the propagation loop -/

lemma sum_map_le_of_getD (f : Nat → Nat) :
    ∀ (l1 l2 : List Nat), l1.length = l2.length →
      (∀ i < l1.length, f (l1.getD i 0) ≤ f (l2.getD i 0)) →
      (l1.map f).sum ≤ (l2.map f).sum := by
  intro l1
  induction l1 with
  | nil => intro l2 _ _; simp
  | cons a t ih =>
    intro l2 hlen hp
    cases l2 with
    | nil => simp at hlen
    | cons b t2 =>
      simp only [List.map_cons, List.sum_cons]
      have h0 : f a ≤ f b := hp 0 (by simp)
      have htail : (t.map f).sum ≤ (t2.map f).sum := by
        refine ih t2 (by simpa using hlen) fun i hi => ?_
        exact hp (i + 1) (by simp; omega)
      omega

lemma sum_map_lt_of_getD (f : Nat → Nat) :
    ∀ (l1 l2 : List Nat), l1.length = l2.length →
      (∀ i < l1.length, f (l1.getD i 0) ≤ f (l2.getD i 0)) →
      (∃ i, i < l1.length ∧ f (l1.getD i 0) < f (l2.getD i 0)) →
      (l1.map f).sum < (l2.map f).sum := by
  intro l1
  induction l1 with
  | nil => rintro l2 _ _ ⟨i, hi, _⟩; simp at hi
  | cons a t ih =>
    intro l2 hlen hp hex
    cases l2 with
    | nil => simp at hlen
    | cons b t2 =>
      simp only [List.map_cons, List.sum_cons]
      have h0 : f a ≤ f b := hp 0 (by simp)
      have htail_le : (t.map f).sum ≤ (t2.map f).sum := by
        refine sum_map_le_of_getD f t t2 (by simpa using hlen) fun i hi => ?_
        exact hp (i + 1) (by simp; omega)
      obtain ⟨i, hi, hstrict⟩ := hex
      cases i with
      | zero =>
        have : f a < f b := hstrict
        omega
      | succ j =>
        have htail_lt : (t.map f).sum < (t2.map f).sum := by
          refine ih t2 (by simpa using hlen) (fun i hi => hp (i + 1) (by simp; omega))
            ⟨j, by simpa using hi, hstrict⟩
        omega

lemma totalPoss_reduce_le {bm : BoardMap} (h : SInv bm) (hmc : MaskComplete bm) :
    totalPoss (reduceOptions bm).1 ≤ totalPoss bm := by
  have hp := reduceOptions_passInv h hmc
  have hls : (reduceOptions bm).1.squares.length = 81 := hp.p_slen
  unfold totalPoss
  refine sum_map_le_of_getD bitCount _ _ (by rw [hls, h.sq_len]) fun i hi => ?_
  rw [hls] at hi
  exact bitCount_le_of_submask (h.sq_lt i hi)
    (fun b => reduceOptions_submask h hmc i hi b)

lemma totalPoss_reduce_lt {bm : BoardMap} (h : SInv bm) (hmc : MaskComplete bm)
    (hpos : (reduceOptions bm).2 ≠ 0) :
    totalPoss (reduceOptions bm).1 < totalPoss bm := by
  have hp := reduceOptions_passInv h hmc
  have hls : (reduceOptions bm).1.squares.length = 81 := hp.p_slen
  have hcount := reduceOptions_count_eq h hmc
  have hfne : (bm.unsolved.filter fun i =>
      !((reduceOptions bm).1.squares.getD i 0 == bm.squares.getD i 0)) ≠ [] := by
    intro hnil
    rw [hnil] at hcount
    exact hpos (by simpa using hcount)
  obtain ⟨x, hx⟩ := List.exists_mem_of_ne_nil _ hfne
  have hxmem : x ∈ bm.unsolved := (List.mem_filter.mp hx).1
  have hxpred := (List.mem_filter.mp hx).2
  have hxne : (reduceOptions bm).1.squares.getD x 0 ≠ bm.squares.getD x 0 := by
    simpa using hxpred
  have hx81 : x < 81 := h.uns_lt x hxmem
  unfold totalPoss
  refine sum_map_lt_of_getD bitCount _ _ (by rw [hls, h.sq_len]) ?_ ?_
  · intro i hi
    rw [hls] at hi
    exact bitCount_le_of_submask (h.sq_lt i hi)
      (fun b => reduceOptions_submask h hmc i hi b)
  · refine ⟨x, by rw [hls]; exact hx81, ?_⟩
    exact bitCount_lt_of_submask_ne (h.sq_lt x hx81)
      (fun b => reduceOptions_submask h hmc x hx81 b) hxne

/-- Bit formula for the triple candidate removal of one cell visit. -/
lemma cellMask3_testBit (bm : BoardMap) (index : Nat) {b : Nat} (hb : b < 16) :
    (cellMask3 bm index).testBit b =
      ((bm.squares.getD index 0).testBit b &&
       !((bm.rows.getD (rowIndex index) 0).testBit b) &&
       !((bm.columns.getD (columnIndex index) 0).testBit b) &&
       !((bm.blocks.getD (blockIndex index) 0).testBit b)) := by
  unfold cellMask3
  rw [testBit_removal hb, testBit_removal hb, testBit_removal hb]

/-- A pass that changes nothing witnesses the fixpoint property: each
unsolved cell's mask is already disjoint from its group masks. -/
lemma propFix_of_zero {bm : BoardMap} (h : SInv bm) (hmc : MaskComplete bm)
    (hz : (reduceOptions bm).2 = 0) : PropFix bm := by
  intro i hiu
  obtain ⟨pre, rest, hsplit⟩ := List.append_of_mem hiu
  have hidx : i < 81 := h.uns_lt i hiu
  have hppre : PassInv bm pre (pre.foldl reduceStep (bm, [], 0)) := by
    have := passInv_fold_prefix h pre [] (i :: rest) (bm, [], 0)
      (by rw [hsplit]; simp) (passInv_init h hmc)
    simpa using this
  have hz2 : (bm.unsolved.foldl reduceStep (bm, [], 0)).2.2 = 0 := hz
  have hsteps : bm.unsolved.foldl reduceStep (bm, [], 0) =
      rest.foldl reduceStep
        (reduceStep (pre.foldl reduceStep (bm, [], 0)) i) := by
    rw [hsplit, List.foldl_append]
    rfl
  have h1 := reduceStep_counter_le (pre.foldl reduceStep (bm, [], 0)) i
  have h2 := foldl_counter_le rest
    (reduceStep (pre.foldl reduceStep (bm, [], 0)) i)
  rw [hsteps] at hz2
  have hcnt_pre : (pre.foldl reduceStep (bm, [], 0)).2.2 = 0 := by omega
  have hcnt_step : (reduceStep (pre.foldl reduceStep (bm, [], 0)) i).2.2 = 0 := by
    omega
  obtain ⟨hsq, hsolved, hboard, hrows, hcols, hblocks⟩ :=
    passInv_zero_state h hppre hcnt_pre
  have hnochange : (pre.foldl reduceStep (bm, [], 0)).1.squares.getD i 0 =
      cellMask3 (pre.foldl reduceStep (bm, [], 0)).1 i := by
    by_contra hne
    have heq := reduceStep_eq (pre.foldl reduceStep (bm, [], 0)).1
      (pre.foldl reduceStep (bm, [], 0)).2.1
      (pre.foldl reduceStep (bm, [], 0)).2.2 i hppre.p_slen hidx
    have hplus : (reduceStep ((pre.foldl reduceStep (bm, [], 0)).1,
        (pre.foldl reduceStep (bm, [], 0)).2.1,
        (pre.foldl reduceStep (bm, [], 0)).2.2) i).2.2 =
        (pre.foldl reduceStep (bm, [], 0)).2.2 + 1 := by
      rw [heq, if_pos hne]
      split <;> rfl
    have hplus2 : (reduceStep (pre.foldl reduceStep (bm, [], 0)) i).2.2 =
        (pre.foldl reduceStep (bm, [], 0)).2.2 + 1 := hplus
    omega
  have hcell : cellMask3 (pre.foldl reduceStep (bm, [], 0)).1 i =
      cellMask3 bm i := by
    unfold cellMask3
    rw [hsq i, hrows _ (rowIndex_lt hidx), hcols _ (columnIndex_lt i),
      hblocks _ (blockIndex_lt hidx)]
  have hfix : bm.squares.getD i 0 = cellMask3 bm i := by
    rw [← hsq i, hnochange, hcell]
  refine Nat.eq_of_testBit_eq fun b => ?_
  rw [Nat.testBit_and, Nat.testBit_or, Nat.testBit_or, Nat.zero_testBit]
  by_cases hb : b < 16
  · have hbits := cellMask3_testBit bm i hb
    rw [← hfix] at hbits
    cases hsb : (bm.squares.getD i 0).testBit b with
    | false => simp
    | true =>
      rw [hsb] at hbits
      simp only [Bool.true_and] at hbits
      have hall : (!((bm.rows.getD (rowIndex i) 0).testBit b) &&
          !((bm.columns.getD (columnIndex i) 0).testBit b) &&
          !((bm.blocks.getD (blockIndex i) 0).testBit b)) = true := hbits.symm
      simp only [Bool.and_eq_true, Bool.not_eq_true'] at hall
      rw [hall.1.1, hall.1.2, hall.2]
      rfl
  · rw [testBit_lt_512 (h.sq_lt i hidx) (by omega)]
    rfl

/-! ### Propagation to fixpoint -/

lemma extendsBoard_trans {a b c : List Char} (h1 : ExtendsBoard a b)
    (h2 : ExtendsBoard b c) : ExtendsBoard a c := by
  intro i hi hne
  have hb := h1 i hi hne
  have hbne : b.getD i '.' ≠ '.' := by rw [hb]; exact hne
  rw [h2 i hi hbne, hb]

lemma propagateGo_spec : ∀ (fuel : Nat) (bm : BoardMap), SInv bm →
    MaskComplete bm → totalPoss bm < fuel →
    SInv (propagateGo fuel bm) ∧ MaskComplete (propagateGo fuel bm) ∧
    (reduceOptions (propagateGo fuel bm)).2 = 0 ∧
    ExtendsBoard bm.board (propagateGo fuel bm).board ∧
    (∀ s, IsSolutionOf s (propagateGo fuel bm).board ↔ IsSolutionOf s bm.board) ∧
    (∀ i < 81, ∀ b, ((propagateGo fuel bm).squares.getD i 0).testBit b = true →
      (bm.squares.getD i 0).testBit b = true) ∧
    totalPoss (propagateGo fuel bm) ≤ totalPoss bm := by
  intro fuel
  induction fuel with
  | zero => intro bm _ _ hlt; omega
  | succ fuel ih =>
    intro bm h hmc _
    simp only [propagateGo]
    by_cases hpos : (reduceOptions bm).2 > 0
    · rw [if_pos hpos]
      have h1 : SInv (reduceOptions bm).1 := sinv_reduceOptions h hmc
      have h2 : MaskComplete (reduceOptions bm).1 := maskComplete_reduceOptions h hmc
      have h3 : totalPoss (reduceOptions bm).1 < fuel := by
        have := totalPoss_reduce_lt h hmc (by omega)
        omega
      obtain ⟨g1, g2, g3, g4, g5, g6, g7⟩ := ih (reduceOptions bm).1 h1 h2 h3
      refine ⟨g1, g2, g3, extendsBoard_trans (reduceOptions_ext h hmc) g4, ?_, ?_, ?_⟩
      · intro s
        exact Iff.trans (g5 s) (reduceOptions_soleq h hmc s)
      · intro i hi b hbit
        exact reduceOptions_submask h hmc i hi b (g6 i hi b hbit)
      · exact Nat.le_trans g7 (totalPoss_reduce_le h hmc)
    · rw [if_neg hpos]
      have hz : (reduceOptions bm).2 = 0 := by omega
      have heq : (reduceOptions bm).1 = bm := reduceOptions_zero_eq h hmc hz
      rw [heq]
      exact ⟨h, hmc, hz, fun i _ _ => rfl,
        fun s => Iff.rfl, fun i _ b hb => hb, Nat.le_refl _⟩

/-- All the facts delivered by running propagation to fixpoint. -/
lemma propagate_spec (bm : BoardMap) (h : SInv bm) (hmc : MaskComplete bm) :
    SInv (propagate bm) ∧ MaskComplete (propagate bm) ∧
    (reduceOptions (propagate bm)).2 = 0 ∧
    ExtendsBoard bm.board (propagate bm).board ∧
    (∀ s, IsSolutionOf s (propagate bm).board ↔ IsSolutionOf s bm.board) ∧
    (∀ i < 81, ∀ b, ((propagate bm).squares.getD i 0).testBit b = true →
      (bm.squares.getD i 0).testBit b = true) ∧
    totalPoss (propagate bm) ≤ totalPoss bm :=
  propagateGo_spec (totalPoss bm + 1) bm h hmc (by omega)

lemma propFix_propagate (bm : BoardMap) (h : SInv bm) (hmc : MaskComplete bm) :
    PropFix (propagate bm) := by
  obtain ⟨h1, h2, h3, _⟩ := propagate_spec bm h hmc
  exact propFix_of_zero h1 h2 h3

/-! ### The selection scan and the candidate pick -/

lemma scanGuess_none_iff (bm : BoardMap) :
    ∀ (l : List Nat) (fewest gi : Nat),
      (scanGuess bm l fewest gi = none ↔ ∃ i ∈ l, numPossibilities bm i = 0) := by
  intro l
  induction l with
  | nil =>
    intro fewest gi
    simp [scanGuess]
  | cons index rest ih =>
    intro fewest gi
    show (if numPossibilities bm index = 0 then none
      else if numPossibilities bm index < fewest then
        scanGuess bm rest (numPossibilities bm index) index
      else scanGuess bm rest fewest gi) = none ↔ _
    by_cases h0 : numPossibilities bm index = 0
    · rw [if_pos h0]
      simp [h0]
    · rw [if_neg h0]
      by_cases hlt : numPossibilities bm index < fewest
      · rw [if_pos hlt, ih]
        simp [h0]
      · rw [if_neg hlt, ih]
        simp [h0]

/-- Characterization of a successful selection scan over a sorted list:
either nothing beat the running minimum, or the result is the
lowest-index cell attaining the minimum possibility count. -/
lemma scanGuess_spec (bm : BoardMap) :
    ∀ (l : List Nat), l.Pairwise (· < ·) →
      ∀ fewest gi few2 gi2, scanGuess bm l fewest gi = some (few2, gi2) →
        ((few2 = fewest ∧ gi2 = gi ∧
            ∀ i ∈ l, fewest ≤ numPossibilities bm i) ∨
         (gi2 ∈ l ∧ few2 = numPossibilities bm gi2 ∧ few2 < fewest ∧
          (∀ i ∈ l, few2 ≤ numPossibilities bm i) ∧
          (∀ i ∈ l, i < gi2 → few2 < numPossibilities bm i))) := by
  intro l
  induction l with
  | nil =>
    intro _ fewest gi few2 gi2 hscan
    simp only [scanGuess, Option.some.injEq, Prod.mk.injEq] at hscan
    exact Or.inl ⟨hscan.1.symm, hscan.2.symm, by simp⟩
  | cons index rest ih =>
    intro hsorted fewest gi few2 gi2 hscan
    have hsorted2 : rest.Pairwise (· < ·) := hsorted.of_cons
    have hhead : ∀ i ∈ rest, index < i := fun i hi =>
      (List.pairwise_cons.mp hsorted).1 i hi
    rw [show scanGuess bm (index :: rest) fewest gi =
      (if numPossibilities bm index = 0 then none
      else if numPossibilities bm index < fewest then
        scanGuess bm rest (numPossibilities bm index) index
      else scanGuess bm rest fewest gi) from rfl] at hscan
    by_cases h0 : numPossibilities bm index = 0
    · rw [if_pos h0] at hscan
      exact absurd hscan (by simp)
    · rw [if_neg h0] at hscan
      by_cases hlt : numPossibilities bm index < fewest
      · rw [if_pos hlt] at hscan
        rcases ih hsorted2 _ _ _ _ hscan with ⟨hf, hg, hall⟩ | hright
        · refine Or.inr ⟨by rw [hg]; simp, by rw [hg, hf],
            by rw [hf]; exact hlt, ?_, ?_⟩
          · intro i hi
            rcases List.mem_cons.mp hi with hieq | hirest
            · rw [hieq, hf]
            · rw [hf]; exact hall i hirest
          · intro i hi hilt
            rw [hg] at hilt
            rcases List.mem_cons.mp hi with hieq | hirest
            · rw [hieq] at hilt; omega
            · exact absurd hilt (by have := hhead i hirest; omega)
        · obtain ⟨hmem, hfew, hflt, hall, hstrict⟩ := hright
          refine Or.inr ⟨List.mem_cons.mpr (Or.inr hmem), hfew, by omega, ?_, ?_⟩
          · intro i hi
            rcases List.mem_cons.mp hi with hieq | hirest
            · rw [hieq]; omega
            · exact hall i hirest
          · intro i hi hilt
            rcases List.mem_cons.mp hi with hieq | hirest
            · rw [hieq]; omega
            · exact hstrict i hirest hilt
      · rw [if_neg hlt] at hscan
        rcases ih hsorted2 _ _ _ _ hscan with ⟨hf, hg, hall⟩ | hright
        · refine Or.inl ⟨hf, hg, ?_⟩
          intro i hi
          rcases List.mem_cons.mp hi with hieq | hirest
          · rw [hieq]; omega
          · exact hall i hirest
        · obtain ⟨hmem, hfew, hflt, hall, hstrict⟩ := hright
          refine Or.inr ⟨List.mem_cons.mpr (Or.inr hmem), hfew, hflt, ?_, ?_⟩
          · intro i hi
            rcases List.mem_cons.mp hi with hieq | hirest
            · rw [hieq]; omega
            · exact hall i hirest
          · intro i hi hilt
            rcases List.mem_cons.mp hi with hieq | hirest
            · rw [hieq]; omega
            · exact hstrict i hirest hilt

/-- The candidate pick returns the lowest-valued symbol whose bit is set. -/
lemma pickGuess_spec : ∀ m < 512, m ≠ 0 →
    (1 ≤ pickGuess m ∧ pickGuess m ≤ 9 ∧
     m.testBit (pickGuess m - 1) = true ∧
     ∀ w, 1 ≤ w → w < pickGuess m → m.testBit (w - 1) = false) := by
  decide

lemma numPoss_ne_zero {bm : BoardMap} {i : Nat} (h : SInv bm) (hi : i < 81)
    (hnz : numPossibilities bm i ≠ 0) : bm.squares.getD i 0 ≠ 0 := by
  intro heq
  unfold numPossibilities at hnz
  rw [heq] at hnz
  exact hnz rfl

lemma rowIndex_mul_add {k c : Nat} (hc : c < 9) : rowIndex (9 * k + c) = k := by
  unfold rowIndex
  omega

lemma columnIndex_mul_add {k c : Nat} (hc : c < 9) : columnIndex (9 * k + c) = c := by
  unfold columnIndex
  omega

/-- If the scan selected nothing strictly below 9, the board is entirely
empty: a filled cell and an unsolved cell cannot coexist at a propagation
fixpoint when every unsolved cell still has all nine candidates. -/
lemma all_nine_no_filled {bm : BoardMap} (h : SInv bm) (hfix : PropFix bm)
    (hall : ∀ i ∈ bm.unsolved, numPossibilities bm i = 9) :
    ∀ u ∈ bm.unsolved, ∀ j < 81, bm.board.getD j '.' = '.' := by
  have hgroups0 : ∀ u ∈ bm.unsolved,
      bm.rows.getD (rowIndex u) 0 = 0 ∧ bm.columns.getD (columnIndex u) 0 = 0 := by
    intro u hu
    have hu81 : u < 81 := h.uns_lt u hu
    have hmask : bm.squares.getD u 0 = 511 :=
      bitCount_eq_nine _ (h.sq_lt u hu81) (hall u hu)
    have hdisj := hfix u hu
    rw [hmask] at hdisj
    have hzero : ∀ x : Nat, x < 512 → (511 &&& x) = 0 → x = 0 := by
      intro x hx hand
      refine Nat.eq_of_testBit_eq fun b => ?_
      rw [Nat.zero_testBit]
      by_cases hb : b < 9
      · have := congrArg (fun y => y.testBit b) hand
        simp only [Nat.testBit_and, Nat.zero_testBit] at this
        have h511 : Nat.testBit 511 b = true := by
          have : (511 : Nat) = 2 ^ 9 - 1 := rfl
          rw [this, Nat.testBit_two_pow_sub_one]
          simp [hb]
        rw [h511] at this
        simpa using this
      · exact testBit_lt_512 hx (by omega)
    have hor : (bm.rows.getD (rowIndex u) 0 ||| bm.columns.getD (columnIndex u) 0 |||
        bm.blocks.getD (blockIndex u) 0) = 0 := by
      refine hzero _ ?_ hdisj
      exact or_lt_512 (or_lt_512 (h.rows_lt _ (rowIndex_lt hu81))
        (h.cols_lt _ (columnIndex_lt u))) (h.blocks_lt _ (blockIndex_lt hu81))
    constructor
    · refine Nat.eq_of_testBit_eq fun b => ?_
      have := congrArg (fun y => y.testBit b) hor
      simp only [Nat.testBit_or, Nat.zero_testBit, Bool.or_eq_false_iff] at this
      rw [Nat.zero_testBit]
      exact this.1.1
    · refine Nat.eq_of_testBit_eq fun b => ?_
      have := congrArg (fun y => y.testBit b) hor
      simp only [Nat.testBit_or, Nat.zero_testBit, Bool.or_eq_false_iff] at this
      rw [Nat.zero_testBit]
      exact this.1.2
  intro u hu j hj
  by_contra hfill
  have hu81 : u < 81 := h.uns_lt u hu
  have hjd : bm.board.getD j '.' ∈ digitChars := (h.wf j hj).resolve_left hfill
  -- the cell in u's row and j's column
  have hw81 : 9 * rowIndex u + columnIndex j < 81 := by
    have := rowIndex_lt hu81
    have := columnIndex_lt j
    omega
  have hwrow : rowIndex (9 * rowIndex u + columnIndex j) = rowIndex u :=
    rowIndex_mul_add (columnIndex_lt j)
  have hwcol : columnIndex (9 * rowIndex u + columnIndex j) = columnIndex j :=
    columnIndex_mul_add (columnIndex_lt j)
  by_cases hw : bm.board.getD (9 * rowIndex u + columnIndex j) '.' = '.'
  · -- w unsolved, so its column mask is zero, but j fills that column
    have hwu : (9 * rowIndex u + columnIndex j) ∈ bm.unsolved :=
      (h.uns_mem _ hw81).mpr hw
    have hc0 := (hgroups0 _ hwu).2
    rw [hwcol] at hc0
    have hbit : (bm.columns.getD (columnIndex j) 0).testBit
        ((bm.board.getD j '.').toNat - 49) = true :=
      (h.cols_bit (columnIndex j) (columnIndex_lt j) _ (digit_val_lt hjd)).mpr
        ⟨j, hj, rfl, (digitChar_roundtrip _ hjd).symm⟩
    rw [hc0] at hbit
    simp at hbit
  · -- w filled, and it shares u's row whose mask is zero
    have hr0 := (hgroups0 _ hu).1
    have hwd : bm.board.getD (9 * rowIndex u + columnIndex j) '.' ∈ digitChars :=
      (h.wf _ hw81).resolve_left hw
    have hbit : (bm.rows.getD (rowIndex u) 0).testBit
        ((bm.board.getD (9 * rowIndex u + columnIndex j) '.').toNat - 49) = true := by
      refine (h.rows_bit (rowIndex u) (rowIndex_lt hu81) _ (digit_val_lt hwd)).mpr
        ⟨9 * rowIndex u + columnIndex j, hw81, hwrow, ?_⟩
      exact (digitChar_roundtrip _ hwd).symm
    rw [hr0] at hbit
    simp at hbit

/-- At a reachable guess point the scan returns the lowest-index cell
with the fewest remaining possibilities, and that cell has at least one
candidate left. -/
lemma guess_point_facts {bm : BoardMap} {few2 gi2 : Nat} (h : SInv bm)
    (hfix : PropFix bm) (hne : bm.unsolved ≠ [])
    (hscan : scanGuess bm bm.unsolved 9 0 = some (few2, gi2)) :
    gi2 ∈ bm.unsolved ∧
    (∀ i ∈ bm.unsolved, numPossibilities bm gi2 ≤ numPossibilities bm i) ∧
    (∀ i ∈ bm.unsolved, i < gi2 → numPossibilities bm gi2 < numPossibilities bm i) ∧
    numPossibilities bm gi2 ≠ 0 := by
  have hnozero : ∀ i ∈ bm.unsolved, numPossibilities bm i ≠ 0 := by
    intro i hi hzero
    have : scanGuess bm bm.unsolved 9 0 = none :=
      (scanGuess_none_iff bm bm.unsolved 9 0).mpr ⟨i, hi, hzero⟩
    rw [this] at hscan
    exact Option.noConfusion hscan
  rcases scanGuess_spec bm bm.unsolved h.uns_sorted 9 0 few2 gi2 hscan with
    ⟨_, hg0, hall9⟩ | ⟨hmem, hfew, _, hall, hstrict⟩
  · -- nothing beat the initial 9: every unsolved cell has all nine candidates
    have hall_eq : ∀ i ∈ bm.unsolved, numPossibilities bm i = 9 := by
      intro i hi
      have hle : numPossibilities bm i ≤ 9 :=
        bitCount_le_nine _ (h.sq_lt i (h.uns_lt i hi))
      have := hall9 i hi
      omega
    obtain ⟨u, hu⟩ := List.exists_mem_of_ne_nil _ hne
    have hempty := all_nine_no_filled h hfix hall_eq u hu
    have h0mem : gi2 ∈ bm.unsolved := by
      rw [hg0]
      exact (h.uns_mem 0 (by omega)).mpr (hempty 0 (by omega))
    refine ⟨h0mem, ?_, ?_, hnozero gi2 h0mem⟩
    · intro i hi
      rw [hall_eq gi2 h0mem, hall_eq i hi]
    · intro i hi hlt
      rw [hg0] at hlt
      omega
  · rw [hfew] at hall hstrict
    exact ⟨hmem, hall, hstrict, hnozero gi2 hmem⟩

/-! ### Guess and retraction bookkeeping -/

/-- Number of empty cells among the 81 board positions. -/
def emptyCount (g : List Char) : Nat :=
  ((Finset.range 81).filter fun i => g.getD i '.' = '.').card

lemma emptyCount_set {g : List Char} {gi : Nat} {c : Char} (hgi : gi < 81)
    (hdot : g.getD gi '.' = '.') (hlen : g.length = 81) (hc : c ≠ '.') :
    emptyCount (g.set gi c) + 1 = emptyCount g := by
  unfold emptyCount
  have hset : ((Finset.range 81).filter fun i => (g.set gi c).getD i '.' = '.') =
      ((Finset.range 81).filter fun i => g.getD i '.' = '.').erase gi := by
    ext j
    simp only [Finset.mem_filter, Finset.mem_erase, Finset.mem_range]
    constructor
    · rintro ⟨hj, hjd⟩
      have hne : j ≠ gi := by
        intro he
        rw [he, getD_set_self (by omega)] at hjd
        exact hc hjd
      rw [getD_set_ne _ _ (fun x => hne x.symm)] at hjd
      exact ⟨hne, hj, hjd⟩
    · rintro ⟨hne, hj, hjd⟩
      rw [getD_set_ne _ _ (fun x => hne x.symm)]
      exact ⟨hj, hjd⟩
  have hmem : gi ∈ (Finset.range 81).filter fun i => g.getD i '.' = '.' := by
    simp only [Finset.mem_filter, Finset.mem_range]
    exact ⟨hgi, hdot⟩
  rw [hset, Finset.card_erase_of_mem hmem]
  have hpos : 0 < ((Finset.range 81).filter fun i => g.getD i '.' = '.').card :=
    Finset.card_pos.mpr ⟨gi, hmem⟩
  omega

lemma emptyCount_le_of_extends {g g2 : List Char} (hext : ExtendsBoard g g2) :
    emptyCount g2 ≤ emptyCount g := by
  unfold emptyCount
  refine Finset.card_le_card fun j hj => ?_
  simp only [Finset.mem_filter, Finset.mem_range] at hj ⊢
  refine ⟨hj.1, ?_⟩
  by_contra hne
  have := hext j hj.1 hne
  rw [hj.2] at this
  exact hne this.symm

lemma totalPoss_le_729 {bm : BoardMap} (hlen : bm.squares.length = 81)
    (hlt : ∀ i < 81, bm.squares.getD i 0 < 512) : totalPoss bm ≤ 729 := by
  unfold totalPoss
  have hmem : ∀ x ∈ bm.squares.map bitCount, x ≤ 9 := by
    intro x hx
    obtain ⟨m, hm, hxm⟩ := List.mem_map.mp hx
    obtain ⟨i, hi, hmi⟩ := List.mem_iff_getElem.mp hm
    have hm512 : m < 512 := by
      have : bm.squares.getD i 0 = m := by
        rw [List.getD_eq_getElem _ _ hi, hmi]
      rw [← this]
      exact hlt i (by omega)
    rw [← hxm]
    exact bitCount_le_nine m hm512
  have := List.sum_le_card_nsmul _ 9 hmem
  simpa [List.length_map, hlen] using this

lemma one_shiftLeft_testBit (k b : Nat) :
    (1 <<< k : Nat).testBit b = decide (k = b) := by
  rw [Nat.one_shiftLeft, Nat.testBit_two_pow]

/-- All facts about the guess taken at a reachable state: the selected
cell, the guessed symbol, and the clone board. -/
lemma guess_setup {bm : BoardMap} {few2 gi : Nat} (h : SInv bm) (hfix : PropFix bm)
    (hne : bm.unsolved ≠ [])
    (hscan : scanGuess bm bm.unsolved 9 0 = some (few2, gi)) :
    gi ∈ bm.unsolved ∧ gi < 81 ∧ bm.board.getD gi '.' = '.' ∧
    1 ≤ pickGuess (bm.squares.getD gi 0) ∧ pickGuess (bm.squares.getD gi 0) ≤ 9 ∧
    (bm.squares.getD gi 0).testBit (pickGuess (bm.squares.getD gi 0) - 1) = true ∧
    Char.ofNat (48 + pickGuess (bm.squares.getD gi 0)) ∈ digitChars ∧
    WellFormedInput (bm.board.set gi
      (Char.ofNat (48 + pickGuess (bm.squares.getD gi 0)))) ∧
    ValidPartialBoard (bm.board.set gi
      (Char.ofNat (48 + pickGuess (bm.squares.getD gi 0)))) ∧
    (∀ s, IsSolutionOf s (bm.board.set gi
        (Char.ofNat (48 + pickGuess (bm.squares.getD gi 0)))) ↔
      (IsSolutionOf s bm.board ∧
        s.getD gi '.' = Char.ofNat (48 + pickGuess (bm.squares.getD gi 0)))) ∧
    ExtendsBoard bm.board (bm.board.set gi
      (Char.ofNat (48 + pickGuess (bm.squares.getD gi 0)))) ∧
    emptyCount (bm.board.set gi
      (Char.ofNat (48 + pickGuess (bm.squares.getD gi 0)))) + 1 =
      emptyCount bm.board := by
  obtain ⟨hmem, hminall, hminstr, hnz⟩ := guess_point_facts h hfix hne hscan
  have hgi81 : gi < 81 := h.uns_lt gi hmem
  have hdot : bm.board.getD gi '.' = '.' := (h.uns_mem gi hgi81).mp hmem
  have hmask_lt : bm.squares.getD gi 0 < 512 := h.sq_lt gi hgi81
  have hmask_ne : bm.squares.getD gi 0 ≠ 0 := numPoss_ne_zero h hgi81 hnz
  obtain ⟨hp1, hp9, hpbit, _⟩ := pickGuess_spec _ hmask_lt hmask_ne
  obtain ⟨hgc_eq, hgc_mem⟩ := guessChar_eq _ hp1 hp9
  have hgc_dot : Char.ofNat (48 + pickGuess (bm.squares.getD gi 0)) ≠ '.' :=
    digit_ne_dot _ hgc_mem
  have hv9 : pickGuess (bm.squares.getD gi 0) - 1 < 9 := by omega
  have hb_self : (bm.board.set gi
      (Char.ofNat (48 + pickGuess (bm.squares.getD gi 0)))).getD gi '.' =
      Char.ofNat (48 + pickGuess (bm.squares.getD gi 0)) :=
    getD_set_self (by rw [h.board_len]; omega)
  have hb_other : ∀ j, j ≠ gi → (bm.board.set gi
      (Char.ofNat (48 + pickGuess (bm.squares.getD gi 0)))).getD j '.' =
      bm.board.getD j '.' :=
    fun j hj => getD_set_ne _ _ (fun he => hj he.symm)
  -- the guessed symbol conflicts with no filled cell of any shared group
  have hgroupbits := hfix gi hmem
  have hgf : ∀ b, (bm.squares.getD gi 0).testBit b = true →
      ((bm.rows.getD (rowIndex gi) 0).testBit b = false ∧
       (bm.columns.getD (columnIndex gi) 0).testBit b = false ∧
       (bm.blocks.getD (blockIndex gi) 0).testBit b = false) := by
    intro b hbtrue
    have := congrArg (fun y => y.testBit b) hgroupbits
    simp only [Nat.testBit_and, Nat.testBit_or, Nat.zero_testBit,
      Bool.and_eq_false_iff, Bool.or_eq_false_iff] at this
    rcases this with hleft | hright
    · rw [hbtrue] at hleft; exact absurd hleft (by simp)
    · exact ⟨hright.1.1, hright.1.2, hright.2⟩
  have hconflict : ∀ j < 81, j ≠ gi → sameGroup gi j →
      bm.board.getD j '.' ≠ Char.ofNat (48 + pickGuess (bm.squares.getD gi 0)) := by
    intro j hj hji hsg heq
    have hjc : bm.board.getD j '.' =
        digitChar (pickGuess (bm.squares.getD gi 0) - 1) := by rw [heq, hgc_eq]
    obtain ⟨hr0, hc0, hk0⟩ := hgf _ hpbit
    rcases hsg with h1 | h1 | h1
    · have := (h.rows_bit (rowIndex gi) (rowIndex_lt hgi81) _ hv9).mpr
        ⟨j, hj, h1.symm, hjc⟩
      rw [hr0] at this
      exact Bool.false_ne_true this
    · have := (h.cols_bit (columnIndex gi) (columnIndex_lt gi) _ hv9).mpr
        ⟨j, hj, h1.symm, hjc⟩
      rw [hc0] at this
      exact Bool.false_ne_true this
    · have := (h.blocks_bit (blockIndex gi) (blockIndex_lt hgi81) _ hv9).mpr
        ⟨j, hj, h1.symm, hjc⟩
      rw [hk0] at this
      exact Bool.false_ne_true this
  refine ⟨hmem, hgi81, hdot, hp1, hp9, hpbit, hgc_mem, ?_, ?_, ?_, ?_, ?_⟩
  · refine ⟨by rw [List.length_set]; exact h.board_len, ?_⟩
    intro i hi
    by_cases hii : i = gi
    · rw [hii, hb_self]; exact Or.inr hgc_mem
    · rw [hb_other i hii]; exact h.wf i hi
  · intro i hi j hj hij hsg hine hjne
    by_cases hii : i = gi
    · have hjj : j ≠ gi := fun he => hij (hii.trans he.symm)
      rw [hii, hb_self, hb_other j hjj]
      intro heq
      exact hconflict j hj hjj (by rw [← hii]; exact hsg) heq.symm
    · by_cases hjj : j = gi
      · rw [hb_other i hii, hjj, hb_self]
        intro heq
        exact hconflict i hi hii (sameGroup_symm (by rw [← hjj]; exact hsg)) heq
      · rw [hb_other i hii] at hine ⊢
        rw [hb_other j hjj] at hjne ⊢
        exact h.valid i hi j hj hij hsg hine hjne
  · intro s
    constructor
    · rintro ⟨hl, hcomp, hsval, hext⟩
      have hsgi : s.getD gi '.' =
          Char.ofNat (48 + pickGuess (bm.squares.getD gi 0)) := by
        rw [← hb_self]
        exact hext gi hgi81 (by rw [hb_self]; exact hgc_dot)
      refine ⟨⟨hl, hcomp, hsval, ?_⟩, hsgi⟩
      intro i hi hne2
      have hii : i ≠ gi := fun he => by rw [he, hdot] at hne2; exact hne2 rfl
      rw [← hb_other i hii]
      exact hext i hi (by rw [hb_other i hii]; exact hne2)
    · rintro ⟨⟨hl, hcomp, hsval, hext⟩, hsgi⟩
      refine ⟨hl, hcomp, hsval, ?_⟩
      intro i hi hne2
      by_cases hii : i = gi
      · rw [hii, hb_self]
        exact hsgi
      · rw [hb_other i hii] at hne2 ⊢
        exact hext i hi hne2
  · intro i hi hne2
    have hii : i ≠ gi := fun he => by rw [he, hdot] at hne2; exact hne2 rfl
    exact hb_other i hii
  · exact emptyCount_set hgi81 hdot h.board_len hgc_dot

/-- The state after `squares[guessIndex] &= ~(1 << (guess - 1))`. -/
def retractState (bm : BoardMap) (gi v : Nat) : BoardMap :=
  { bm with squares :=
      bm.squares.set gi (bm.squares.getD gi 0 &&& (65535 ^^^ (1 <<< (v - 1)))) }

/-- Retracting a refuted candidate preserves the state invariants and
strictly shrinks the possibility measure. -/
lemma retract_setup {bm : BoardMap} {gi v : Nat} (h : SInv bm) (hfix : PropFix bm)
    (hmc : MaskComplete bm) (hmem : gi ∈ bm.unsolved)
    (hv1 : 1 ≤ v) (hv9 : v ≤ 9)
    (hbit : (bm.squares.getD gi 0).testBit (v - 1) = true)
    (hsne : ∀ s, IsSolutionOf s bm.board →
      s.getD gi '.' ≠ Char.ofNat (48 + v)) :
    SInv (retractState bm gi v) ∧ PropFix (retractState bm gi v) ∧
    MaskComplete (retractState bm gi v) ∧
    totalPoss (retractState bm gi v) < totalPoss bm := by
  unfold retractState
  have hgi81 : gi < 81 := h.uns_lt gi hmem
  have hdot : bm.board.getD gi '.' = '.' := (h.uns_mem gi hgi81).mp hmem
  obtain ⟨hgc_eq, hgc_mem⟩ := guessChar_eq v hv1 hv9
  have hA_self : ((bm.squares.set gi
      (bm.squares.getD gi 0 &&& (65535 ^^^ (1 <<< (v - 1))))).getD gi 0) =
      bm.squares.getD gi 0 &&& (65535 ^^^ (1 <<< (v - 1))) :=
    getD_set_self (by rw [h.sq_len]; omega)
  have hA_other : ∀ j, j ≠ gi → ((bm.squares.set gi
      (bm.squares.getD gi 0 &&& (65535 ^^^ (1 <<< (v - 1))))).getD j 0) =
      bm.squares.getD j 0 :=
    fun j hj => getD_set_ne _ _ (fun he => hj he.symm)
  have hm_bit : ∀ b, b < 16 →
      (bm.squares.getD gi 0 &&& (65535 ^^^ (1 <<< (v - 1)))).testBit b =
        ((bm.squares.getD gi 0).testBit b && !(decide (v - 1 = b))) := by
    intro b hb
    rw [testBit_removal hb, one_shiftLeft_testBit]
  have hm_sub : ∀ b,
      (bm.squares.getD gi 0 &&& (65535 ^^^ (1 <<< (v - 1)))).testBit b = true →
        (bm.squares.getD gi 0).testBit b = true := by
    intro b hb
    by_cases hb16 : b < 16
    · rw [hm_bit b hb16] at hb
      exact (Bool.and_eq_true_iff.mp hb).1
    · exfalso
      rw [Nat.testBit_and, testBit_lt_512 (h.sq_lt gi hgi81) (by omega)] at hb
      simpa using hb
  have hm_lt : bm.squares.getD gi 0 &&& (65535 ^^^ (1 <<< (v - 1))) < 512 :=
    submask_lt (h.sq_lt gi hgi81) hm_sub
  have hm_ne : bm.squares.getD gi 0 &&& (65535 ^^^ (1 <<< (v - 1))) ≠
      bm.squares.getD gi 0 := by
    intro heq
    have := congrArg (fun y => y.testBit (v - 1)) heq
    simp only [] at this
    rw [hm_bit (v - 1) (by omega), hbit] at this
    simp at this
  refine ⟨?_, ?_, ?_, ?_⟩
  · refine ⟨h.board_len, by rw [List.length_set]; exact h.sq_len, h.rows_len,
      h.cols_len, h.blocks_len, h.wf, ?_, h.rows_lt, h.cols_lt, h.blocks_lt,
      h.uns_sorted, h.uns_lt, h.uns_mem, ?_, h.rows_bit, h.cols_bit,
      h.blocks_bit, h.valid⟩
    · intro i hi
      by_cases hii : i = gi
      · rw [hii, hA_self]; exact hm_lt
      · rw [hA_other i hii]; exact h.sq_lt i hi
    · intro i hi hne2
      have hii : i ≠ gi := fun he => by rw [he, hdot] at hne2; exact hne2 rfl
      rw [hA_other i hii]
      exact h.sq_filled i hi hne2
  · intro i hi
    by_cases hii : i = gi
    · rw [hii, hA_self]
      refine Nat.eq_of_testBit_eq fun b => ?_
      rw [Nat.testBit_and, Nat.zero_testBit]
      have hold := congrArg (fun y => y.testBit b) (hfix gi hmem)
      simp only [Nat.testBit_and, Nat.zero_testBit] at hold
      cases hsb : (bm.squares.getD gi 0 &&&
          (65535 ^^^ (1 <<< (v - 1)))).testBit b with
      | false => rfl
      | true =>
        have := hm_sub b hsb
        rw [this] at hold
        simpa using hold
    · show (bm.squares.set gi
          (bm.squares.getD gi 0 &&& (65535 ^^^ (1 <<< (v - 1))))).getD i 0 &&& _ = 0
      rw [hA_other i hii]
      exact hfix i hi
  · intro s hs i hi hidot
    by_cases hii : i = gi
    · rw [hii, hA_self]
      have hsd : s.getD gi '.' ∈ digitChars := hs.2.1 gi hgi81
      have hb9 : (s.getD gi '.').toNat - 49 < 9 := digit_val_lt hsd
      rw [hm_bit _ (by omega)]
      have hmcbit := hmc s hs gi hgi81 hdot
      rw [hmcbit]
      have hne2 : ¬(v - 1 = (s.getD gi '.').toNat - 49) := by
        intro heqv
        have : s.getD gi '.' = digitChar (v - 1) := by
          rw [heqv, digitChar_roundtrip _ hsd]
        rw [← hgc_eq] at this
        exact hsne s hs this
      simp only [Bool.true_and, Bool.not_eq_true', decide_eq_false_iff_not]
      exact fun he => hne2 he
    · rw [hA_other i hii]
      exact hmc s hs i hi hidot
  · unfold totalPoss
    refine sum_map_lt_of_getD bitCount _ _ (by rw [List.length_set]) ?_ ?_
    · intro i hi
      rw [List.length_set, h.sq_len] at hi
      by_cases hii : i = gi
      · rw [hii, hA_self]
        exact bitCount_le_of_submask (h.sq_lt gi hgi81) hm_sub
      · rw [hA_other i hii]
    · refine ⟨gi, by rw [List.length_set, h.sq_len]; omega, ?_⟩
      rw [hA_self]
      exact bitCount_lt_of_submask_ne (h.sq_lt gi hgi81) hm_sub hm_ne

/-! ### Master specification of the search loop -/

/-- Soundness of a `true` result, completeness of a `false` result, the
final board on failure, and monotone shrinkage of this instance's masks. -/
lemma solveGo_spec : ∀ (fuel : Nat) (bm : BoardMap), SInv bm → PropFix bm →
    MaskComplete bm → ∀ res bm2 tr, solveGo fuel bm = some (res, bm2, tr) →
      (res = true → bm2.board.length = 81 ∧ CompleteBoard bm2.board ∧
        ValidPartialBoard bm2.board ∧ ExtendsBoard bm.board bm2.board) ∧
      (res = false → bm2.board = bm.board ∧ ¬∃ s, IsSolutionOf s bm.board) ∧
      (∀ i < 81, ∀ b, (bm2.squares.getD i 0).testBit b = true →
        (bm.squares.getD i 0).testBit b = true) := by
  intro fuel
  induction fuel with
  | zero =>
    intro bm _ _ _ res bm2 tr hrun
    exact absurd hrun (by simp [solveGo])
  | succ fuel ih =>
    intro bm h hfix hmc res bm2 tr hrun
    simp only [solveGo] at hrun
    split at hrun
    · -- unsolved is empty: immediate success with the current state
      rename_i hemp
      simp only [Option.some.injEq, Prod.mk.injEq] at hrun
      obtain ⟨h1, h2, _⟩ := hrun
      have huns : bm.unsolved = [] := List.isEmpty_iff.mp hemp
      refine ⟨?_, ?_, ?_⟩
      · intro _
        rw [← h2]
        refine ⟨h.board_len, ?_, h.valid, fun i _ _ => rfl⟩
        intro i hi
        have hnotin : i ∉ bm.unsolved := by rw [huns]; exact List.not_mem_nil i
        have hne : bm.board.getD i '.' ≠ '.' :=
          fun hd => hnotin ((h.uns_mem i hi).mpr hd)
        exact (h.wf i hi).resolve_left hne
      · intro hres
        rw [← h1] at hres
        exact absurd hres (by simp)
      · intro i _ b hb
        rw [← h2] at hb
        exact hb
    · -- some unsolved cells remain
      rename_i hemp
      split at hrun
      · -- the scan found a zero-possibility cell: immediate failure
        rename_i hscan
        simp only [Option.some.injEq, Prod.mk.injEq] at hrun
        obtain ⟨h1, h2, _⟩ := hrun
        obtain ⟨z, hzmem, hz⟩ := (scanGuess_none_iff bm bm.unsolved 9 0).mp hscan
        have hz81 : z < 81 := h.uns_lt z hzmem
        have hzmask : bm.squares.getD z 0 = 0 := by
          have := (bitCount_eq_zero _ (h.sq_lt z hz81)).mp hz
          exact this
        refine ⟨?_, ?_, ?_⟩
        · intro hres
          rw [← h1] at hres
          exact absurd hres (by simp)
        · intro _
          rw [← h2]
          refine ⟨rfl, ?_⟩
          rintro ⟨s, hs⟩
          have hdotz : bm.board.getD z '.' = '.' := (h.uns_mem z hz81).mp hzmem
          have := hmc s hs z hz81 hdotz
          rw [hzmask] at this
          simpa using this
        · intro i _ b hb
          rw [← h2] at hb
          exact hb
      · -- a guess is made
        rename_i scanned few2 gi hscan
        have hneq : bm.unsolved ≠ [] := by
          intro hn
          rw [hn] at hemp
          exact hemp rfl
        obtain ⟨hmem, hgi81, hdot, hp1, hp9, hpbit, hgcmem, hwfC, hvalC, hsolC,
          hextC, hemptyC⟩ := guess_setup h hfix hneq hscan
        have hSmk : SInv (mkBoardMap (bm.board.set gi
            (Char.ofNat (48 + pickGuess (bm.squares.getD gi 0))))) :=
          inv_of_mkBoardMap hwfC hvalC
        have hMmk : MaskComplete (mkBoardMap (bm.board.set gi
            (Char.ofNat (48 + pickGuess (bm.squares.getD gi 0))))) :=
          maskComplete_of_mkBoardMap hwfC
        obtain ⟨hSc, hMc, hFixc0, hExtc, hSolc, hSubc, hTpc⟩ :=
          propagate_spec _ hSmk hMmk
        have hFixc := propFix_of_zero hSc hMc hFixc0
        have hmkb : (mkBoardMap (bm.board.set gi
            (Char.ofNat (48 + pickGuess (bm.squares.getD gi 0))))).board =
            bm.board.set gi (Char.ofNat (48 + pickGuess (bm.squares.getD gi 0))) :=
          (mkBoardMap_inv _).board_eq
        rw [hmkb] at hExtc hSolc
        split at hrun
        · exact absurd hrun (by simp)
        · -- the recursive attempt succeeded: adopt its board
          rename_i xclone copy tr1 hclone
          obtain ⟨hlen1, hcomp1, hval1, hext1⟩ :=
            (ih _ hSc hFixc hMc true copy tr1 hclone).1 rfl
          simp only [Option.some.injEq, Prod.mk.injEq] at hrun
          obtain ⟨h1, h2, _⟩ := hrun
          refine ⟨?_, ?_, ?_⟩
          · intro _
            rw [← h2]
            refine ⟨hlen1, hcomp1, hval1, ?_⟩
            exact extendsBoard_trans hextC (extendsBoard_trans hExtc hext1)
          · intro hres
            rw [← h1] at hres
            exact absurd hres (by simp)
          · intro i _ b hb
            rw [← h2] at hb
            exact hb
        · -- the recursive attempt failed: retract the candidate and loop
          rename_i xclone cfst tr1 hclone
          have hnosolclone :=
            ((ih _ hSc hFixc hMc false cfst tr1 hclone).2.1 rfl).2
          have hnosolC : ¬∃ s, IsSolutionOf s (bm.board.set gi
              (Char.ofNat (48 + pickGuess (bm.squares.getD gi 0)))) := by
            rintro ⟨s, hs⟩
            exact hnosolclone ⟨s, (hSolc s).mpr hs⟩
          have hsne : ∀ s, IsSolutionOf s bm.board → s.getD gi '.' ≠
              Char.ofNat (48 + pickGuess (bm.squares.getD gi 0)) := by
            intro s hs hgc
            exact hnosolC ⟨s, (hsolC s).mpr ⟨hs, hgc⟩⟩
          obtain ⟨hSr, hFixr, hMr, _⟩ :=
            retract_setup h hfix hmc hmem hp1 hp9 hpbit hsne
          split at hrun
          · exact absurd hrun (by simp)
          · rename_i xr rb rbm rtr hretract
            have hretr : solveGo fuel
                (retractState bm gi (pickGuess (bm.squares.getD gi 0))) =
                some (rb, rbm, rtr) := hretract
            have hspec := ih _ hSr hFixr hMr rb rbm rtr hretr
            simp only [Option.some.injEq, Prod.mk.injEq] at hrun
            obtain ⟨h1, h2, _⟩ := hrun
            have hsubr : ∀ i < 81, ∀ b2, ((retractState bm gi
                (pickGuess (bm.squares.getD gi 0))).squares.getD i 0).testBit b2
                  = true → (bm.squares.getD i 0).testBit b2 = true := by
              intro i hi b2 hb2
              by_cases hii : i = gi
              · have hsq : ((retractState bm gi
                    (pickGuess (bm.squares.getD gi 0))).squares.getD gi 0) =
                    bm.squares.getD gi 0 &&&
                      (65535 ^^^ (1 <<< (pickGuess (bm.squares.getD gi 0) - 1))) :=
                  getD_set_self (by rw [h.sq_len]; omega)
                rw [hii, hsq, Nat.testBit_and] at hb2
                rw [hii]
                exact (Bool.and_eq_true_iff.mp hb2).1
              · have hsq : ((retractState bm gi
                    (pickGuess (bm.squares.getD gi 0))).squares.getD i 0) =
                    bm.squares.getD i 0 :=
                  getD_set_ne _ _ (fun he => hii he.symm)
                rw [hsq] at hb2
                exact hb2
            refine ⟨?_, ?_, ?_⟩
            · intro hres
              rw [← h1] at hres
              obtain ⟨hl2, hc2, hv2, he2⟩ := hspec.1 hres
              rw [← h2]
              exact ⟨hl2, hc2, hv2, he2⟩
            · intro hres
              rw [← h1] at hres
              obtain ⟨hb2, hns2⟩ := hspec.2.1 hres
              rw [← h2]
              exact ⟨hb2, hns2⟩
            · intro i hi b hb
              rw [← h2] at hb
              exact hsubr i hi b (hspec.2.2 i hi b hb)

/-- Fuel sufficiency: the search loop terminates within
`emptyCount * 730 + totalPoss` steps of fuel. -/
lemma solveGo_total : ∀ (n : Nat) (bm : BoardMap), SInv bm → PropFix bm →
    MaskComplete bm → emptyCount bm.board * 730 + totalPoss bm < n →
    (solveGo n bm).isSome = true := by
  intro n
  induction n with
  | zero => intro bm _ _ _ hlt; exact absurd hlt (by omega)
  | succ n ih =>
    intro bm h hfix hmc hlt
    cases hres : solveGo (n + 1) bm with
    | some r => rfl
    | none =>
      exfalso
      simp only [solveGo] at hres
      split at hres
      · exact absurd hres (by simp)
      · rename_i hemp
        split at hres
        · exact absurd hres (by simp)
        · rename_i scanned few2 gi hscan
          have hneq : bm.unsolved ≠ [] := by
            intro hn
            rw [hn] at hemp
            exact hemp rfl
          obtain ⟨hmem, hgi81, hdot, hp1, hp9, hpbit, hgcmem, hwfC, hvalC, hsolC,
            hextC, hemptyC⟩ := guess_setup h hfix hneq hscan
          have hSmk : SInv (mkBoardMap (bm.board.set gi
              (Char.ofNat (48 + pickGuess (bm.squares.getD gi 0))))) :=
            inv_of_mkBoardMap hwfC hvalC
          have hMmk : MaskComplete (mkBoardMap (bm.board.set gi
              (Char.ofNat (48 + pickGuess (bm.squares.getD gi 0))))) :=
            maskComplete_of_mkBoardMap hwfC
          obtain ⟨hSc, hMc, hFixc0, hExtc, hSolc, hSubc, hTpc⟩ :=
            propagate_spec _ hSmk hMmk
          have hFixc := propFix_of_zero hSc hMc hFixc0
          have hmkb : (mkBoardMap (bm.board.set gi
              (Char.ofNat (48 + pickGuess (bm.squares.getD gi 0))))).board =
              bm.board.set gi (Char.ofNat (48 + pickGuess (bm.squares.getD gi 0))) :=
            (mkBoardMap_inv _).board_eq
          rw [hmkb] at hExtc hSolc
          have htp729 : totalPoss (mkBoardMap (bm.board.set gi
              (Char.ofNat (48 + pickGuess (bm.squares.getD gi 0))))) ≤ 729 :=
            totalPoss_le_729 hSmk.sq_len hSmk.sq_lt
          have hec := emptyCount_le_of_extends hExtc
          have hmu : emptyCount (propagate (mkBoardMap (bm.board.set gi
              (Char.ofNat (48 + pickGuess (bm.squares.getD gi 0)))))).board * 730 +
              totalPoss (propagate (mkBoardMap (bm.board.set gi
                (Char.ofNat (48 + pickGuess (bm.squares.getD gi 0)))))) < n :=
            (fun E2 T2 EC Tmk E T h1 h2 h3 h4 h5 => by omega :
              ∀ E2 T2 EC Tmk E T : Nat, E2 ≤ EC → T2 ≤ Tmk → Tmk ≤ 729 →
                EC + 1 = E → E * 730 + T < n + 1 → E2 * 730 + T2 < n)
              _ _ _ _ _ _ hec hTpc htp729 hemptyC hlt
          have hclone := ih _ hSc hFixc hMc hmu
          split at hres
          · rename_i hcl
            rw [hcl] at hclone
            simp at hclone
          · exact absurd hres (by simp)
          · rename_i xclone cfst tr1 hcl
            have hnosolclone :=
              ((solveGo_spec n _ hSc hFixc hMc false cfst tr1 hcl).2.1 rfl).2
            have hnosolC : ¬∃ s, IsSolutionOf s (bm.board.set gi
                (Char.ofNat (48 + pickGuess (bm.squares.getD gi 0)))) := by
              rintro ⟨s, hs⟩
              exact hnosolclone ⟨s, (hSolc s).mpr hs⟩
            have hsne : ∀ s, IsSolutionOf s bm.board → s.getD gi '.' ≠
                Char.ofNat (48 + pickGuess (bm.squares.getD gi 0)) := by
              intro s hs hgc
              exact hnosolC ⟨s, (hsolC s).mpr ⟨hs, hgc⟩⟩
            obtain ⟨hSr, hFixr, hMr, hTpr⟩ :=
              retract_setup h hfix hmc hmem hp1 hp9 hpbit hsne
            have hmur : emptyCount (retractState bm gi
                (pickGuess (bm.squares.getD gi 0))).board * 730 +
                totalPoss (retractState bm gi
                  (pickGuess (bm.squares.getD gi 0))) < n := by
              have hbeq : (retractState bm gi
                  (pickGuess (bm.squares.getD gi 0))).board = bm.board := rfl
              rw [hbeq]
              exact (fun T2 E T h1 h2 => by omega :
                ∀ T2 E T : Nat, T2 < T → E * 730 + T < n + 1 → E * 730 + T2 < n)
                _ _ _ hTpr hlt
            have hretx := ih _ hSr hFixr hMr hmur
            split at hres
            · rename_i hrt
              have hrt2 : solveGo n
                  (retractState bm gi (pickGuess (bm.squares.getD gi 0))) =
                  none := hrt
              rw [hrt2] at hretx
              simp at hretx
            · exact absurd hres (by simp)

/-! ### Groups of a complete valid board -/

lemma rowCells_props : ∀ k < 9, (rowCells k).Nodup ∧ (rowCells k).length = 9 ∧
    (∀ i ∈ rowCells k, i < 81) ∧
    (∀ i ∈ rowCells k, ∀ j ∈ rowCells k, i ≠ j → sameGroup i j) := by decide

lemma colCells_props : ∀ k < 9, (colCells k).Nodup ∧ (colCells k).length = 9 ∧
    (∀ i ∈ colCells k, i < 81) ∧
    (∀ i ∈ colCells k, ∀ j ∈ colCells k, i ≠ j → sameGroup i j) := by decide

lemma blockCells_props : ∀ k < 9, (blockCells k).Nodup ∧
    (blockCells k).length = 9 ∧ (∀ i ∈ blockCells k, i < 81) ∧
    (∀ i ∈ blockCells k, ∀ j ∈ blockCells k, i ≠ j → sameGroup i j) := by decide

lemma digitChars_count : ∀ c ∈ digitChars, digitChars.count c = 1 := by decide

/-- Nine pairwise same-group cells of a complete duplicate-free board hold
each symbol exactly once. -/
lemma count_one_of_group {g : List Char} (hcomp : CompleteBoard g)
    (hval : ValidPartialBoard g) (cells : List Nat) (hnd : cells.Nodup)
    (hlen : cells.length = 9) (hlt : ∀ i ∈ cells, i < 81)
    (hsg : ∀ i ∈ cells, ∀ j ∈ cells, i ≠ j → sameGroup i j) :
    ∀ c ∈ digitChars, (groupVals g cells).count c = 1 := by
  have hmap : (groupVals g cells).Nodup := by
    refine List.Nodup.map_on ?_ hnd
    intro x hx y hy hfeq
    by_contra hne
    exact hval x (hlt x hx) y (hlt y hy) hne (hsg x hx y hy hne)
      (digit_ne_dot _ (hcomp x (hlt x hx))) (digit_ne_dot _ (hcomp y (hlt y hy)))
      hfeq
  have hsub : groupVals g cells ⊆ digitChars := by
    intro c hc
    obtain ⟨i, hi, hci⟩ := List.mem_map.mp hc
    rw [← hci]
    exact hcomp i (hlt i hi)
  have hsp := List.subperm_of_subset hmap hsub
  have hlen2 : (groupVals g cells).length = 9 := by
    unfold groupVals
    rw [List.length_map, hlen]
  have hperm : (groupVals g cells).Perm digitChars := by
    refine hsp.perm_of_length_le ?_
    rw [hlen2]
    rfl
  intro c hc
  rw [hperm.count_eq]
  exact digitChars_count c hc

/-- A complete board with no duplicate in any group has every symbol
exactly once in every row, column and block. -/
lemma groupsExactlyOnce_of_complete {g : List Char} (hcomp : CompleteBoard g)
    (hval : ValidPartialBoard g) : GroupsExactlyOnce g := by
  intro k hk c hc
  obtain ⟨hnd1, hl1, hlt1, hsg1⟩ := rowCells_props k hk
  obtain ⟨hnd2, hl2, hlt2, hsg2⟩ := colCells_props k hk
  obtain ⟨hnd3, hl3, hlt3, hsg3⟩ := blockCells_props k hk
  exact ⟨count_one_of_group hcomp hval _ hnd1 hl1 hlt1 hsg1 c hc,
    count_one_of_group hcomp hval _ hnd2 hl2 hlt2 hsg2 c hc,
    count_one_of_group hcomp hval _ hnd3 hl3 hlt3 hsg3 c hc⟩

/-! ### Further pass facts used by the claims about `reduceOptions` -/

/-- After a pass, `unsolved` is the old list restricted to the cells still
empty on the updated board: the deferred erase at the end of the pass
removes exactly the cells committed during it. -/
lemma reduceOptions_unsolved_eq {bm : BoardMap} (h : SInv bm)
    (hmc : MaskComplete bm) : (reduceOptions bm).1.unsolved =
      bm.unsolved.filter fun i =>
        (reduceOptions bm).1.board.getD i '.' == '.' := by
  have hp := reduceOptions_passInv h hmc
  show (bm.unsolved.foldl reduceStep (bm, [], 0)).1.unsolved.filter _ = _
  rw [hp.p_uns]
  refine List.filter_congr ?_
  intro i hi
  have hi81 : i < 81 := h.uns_lt i hi
  have hbeq : (reduceOptions bm).1.board =
      (bm.unsolved.foldl reduceStep (bm, [], 0)).1.board := rfl
  by_cases hsolv : i ∈ (bm.unsolved.foldl reduceStep (bm, [], 0)).2.1
  · have hne := (hp.p_solved i hsolv).1
    rw [List.getD_eq_getElem?_getD] at hne
    simp [hsolv, hbeq, hne]
  · have hdot : (bm.unsolved.foldl reduceStep (bm, [], 0)).1.board.getD i '.'
        = '.' := ((hp.p_mem i hi81).mp hi).resolve_right hsolv
    rw [List.getD_eq_getElem?_getD] at hdot
    simp [hsolv, hbeq, hdot]

/-- Propagation is an iterate of the single-pass function, stopped at the
first pass that reports zero reductions. -/
lemma propagateGo_iterate : ∀ (fuel : Nat) (bm : BoardMap),
    ∃ k, propagateGo fuel bm = Nat.iterate (fun b => (reduceOptions b).1) k bm := by
  intro fuel
  induction fuel with
  | zero => intro bm; exact ⟨0, rfl⟩
  | succ fuel ih =>
    intro bm
    simp only [propagateGo]
    by_cases hz : (reduceOptions bm).2 > 0
    · rw [if_pos hz]
      obtain ⟨k, hk⟩ := ih (reduceOptions bm).1
      exact ⟨k + 1, hk⟩
    · rw [if_neg hz]
      exact ⟨1, rfl⟩

lemma propagate_iterate (bm : BoardMap) :
    ∃ k, propagate bm = Nat.iterate (fun b => (reduceOptions b).1) k bm :=
  propagateGo_iterate (totalPoss bm + 1) bm

/-! ### The `unsolved` bookkeeping relation of C9 -/

/-- `unsolved` holds exactly the cells whose mask has a number of set bits
different from one. -/
def UnsInv (bm : BoardMap) : Prop :=
  ∀ i < 81, (i ∈ bm.unsolved ↔ bitCount (bm.squares.getD i 0) ≠ 1)

instance (bm : BoardMap) : Decidable (UnsInv bm) := by
  unfold UnsInv
  infer_instance

lemma unsInv_mkBoardMap {g : List Char} (hwf : WellFormedInput g) :
    UnsInv (mkBoardMap g) := by
  obtain ⟨hb, hsl, hrl, hcl, hbl, hu, hsp, hsr, hrb, hcb, hbb⟩ := mkBoardMap_inv g
  intro i hi
  have hmem : i ∈ (mkBoardMap g).unsolved ↔ g.getD i '.' = '.' := by
    rw [hu]
    simp [List.mem_filter, List.mem_range, hi]
  rw [hmem, hsp i hi]
  by_cases hd : g.getD i '.' = '.'
  · rw [if_pos hd]
    exact ⟨fun _ => by decide, fun _ => hd⟩
  · rw [if_neg hd]
    have hc : g.getD i '.' ∈ digitChars := (hwf.2 i hi).resolve_left hd
    have h1 := bitCount_charMask _ hc
    exact ⟨fun h' => absurd h' hd, fun hne => absurd h1 hne⟩

/-- Fold invariant of one pass tracking that a visited but uncommitted
cell has an unchanged mask or a non-singleton mask. -/
structure C9Inv (bm0 : BoardMap) (pre : List Nat)
    (st : BoardMap × List Nat × Nat) : Prop where
  q_slen : st.1.squares.length = 81
  q_sqlt : ∀ i < 81, st.1.squares.getD i 0 < 512
  q_squ : ∀ i, i ∉ pre → st.1.squares.getD i 0 = bm0.squares.getD i 0
  q_c9 : ∀ i ∈ pre, i ∉ st.2.1 →
    st.1.squares.getD i 0 = bm0.squares.getD i 0 ∨
      bitCount (st.1.squares.getD i 0) ≠ 1

lemma c9Inv_step {bm0 : BoardMap} {pre : List Nat} {index : Nat}
    {st : BoardMap × List Nat × Nat} (hidx : index < 81)
    (hnotpre : index ∉ pre) (h : C9Inv bm0 pre st) :
    C9Inv bm0 (pre ++ [index]) (reduceStep st index) := by
  obtain ⟨st1, solved, r⟩ := st
  have hslen : st1.squares.length = 81 := h.q_slen
  have hsub3 : ∀ b, (cellMask3 st1 index).testBit b = true →
      (st1.squares.getD index 0).testBit b = true := by
    intro b hb
    unfold cellMask3 at hb
    simp only [Nat.testBit_and, Bool.and_eq_true] at hb
    exact hb.1.1.1
  have hm3lt : cellMask3 st1 index < 512 :=
    submask_lt (h.q_sqlt index hidx) hsub3
  have hq_sqlt : ∀ i < 81,
      ((st1.squares.set index (cellMask3 st1 index)).getD i 0) < 512 := by
    intro i hi
    by_cases hii : i = index
    · rw [hii, getD_set_self (by rw [hslen]; omega)]
      exact hm3lt
    · rw [getD_set_ne _ _ fun he => hii he.symm]
      exact h.q_sqlt i hi
  have hq_squ : ∀ i, i ∉ pre ++ [index] →
      ((st1.squares.set index (cellMask3 st1 index)).getD i 0) =
        bm0.squares.getD i 0 := by
    intro i hip
    have hine : i ≠ index := by
      intro he
      exact hip (by rw [he]; simp)
    rw [getD_set_ne _ _ fun he => hine he.symm]
    exact h.q_squ i fun hin => hip (by simp [hin])
  rw [reduceStep_eq st1 solved r index hslen hidx]
  by_cases hch : st1.squares.getD index 0 ≠ cellMask3 st1 index
  · rw [if_pos hch]
    by_cases hsol : toChar (cellMask3 st1 index) ≠ '.'
    · rw [if_pos hsol]
      refine ⟨?_, ?_, hq_squ, ?_⟩
      · show (st1.squares.set index (cellMask3 st1 index)).length = 81
        rw [List.length_set]
        exact hslen
      · exact hq_sqlt
      · intro i hip hisolv
        have hinsolv : i ∉ solved := fun hin => hisolv (by simp [hin])
        have hine : i ≠ index := by
          intro he
          exact hisolv (by rw [he]; simp)
        have hipre : i ∈ pre := by
          rcases List.mem_append.mp hip with h1 | h1
          · exact h1
          · exact absurd (List.mem_singleton.mp h1) hine
        show ((st1.squares.set index (cellMask3 st1 index)).getD i 0) =
            bm0.squares.getD i 0 ∨
          bitCount ((st1.squares.set index (cellMask3 st1 index)).getD i 0) ≠ 1
        rw [getD_set_ne _ _ fun he => hine he.symm]
        exact h.q_c9 i hipre hinsolv
    · rw [if_neg hsol]
      have hdot : toChar (cellMask3 st1 index) = '.' := not_not.mp hsol
      refine ⟨?_, hq_sqlt, hq_squ, ?_⟩
      · show (st1.squares.set index (cellMask3 st1 index)).length = 81
        rw [List.length_set]
        exact hslen
      · intro i hip hisolv
        by_cases hii : i = index
        · rw [hii, getD_set_self (by rw [hslen]; omega)]
          exact Or.inr ((toChar_eq_dot _ hm3lt).mp hdot)
        · have hipre : i ∈ pre := by
            rcases List.mem_append.mp hip with h1 | h1
            · exact h1
            · exact absurd (List.mem_singleton.mp h1) hii
          rw [getD_set_ne _ _ fun he => hii he.symm]
          exact h.q_c9 i hipre hisolv
  · rw [if_neg hch]
    have heqm : st1.squares.getD index 0 = cellMask3 st1 index := not_not.mp hch
    refine ⟨?_, hq_sqlt, hq_squ, ?_⟩
    · show (st1.squares.set index (cellMask3 st1 index)).length = 81
      rw [List.length_set]
      exact hslen
    · intro i hip hisolv
      by_cases hii : i = index
      · rw [hii, getD_set_self (by rw [hslen]; omega), ← heqm]
        exact Or.inl (h.q_squ index hnotpre)
      · have hipre : i ∈ pre := by
          rcases List.mem_append.mp hip with h1 | h1
          · exact h1
          · exact absurd (List.mem_singleton.mp h1) hii
        rw [getD_set_ne _ _ fun he => hii he.symm]
        exact h.q_c9 i hipre hisolv

lemma c9Inv_fold_prefix {bm0 : BoardMap} (h0 : SInv bm0) :
    ∀ (mid pre tail : List Nat) (st : BoardMap × List Nat × Nat),
      bm0.unsolved = pre ++ mid ++ tail → C9Inv bm0 pre st →
      C9Inv bm0 (pre ++ mid) (mid.foldl reduceStep st) := by
  intro mid
  induction mid with
  | nil => intro pre tail st _ h; simpa using h
  | cons index rest ih =>
    intro pre tail st hsplit h
    have hmem : index ∈ bm0.unsolved := by rw [hsplit]; simp
    have hidx : index < 81 := h0.uns_lt index hmem
    have hnotpre : index ∉ pre := by
      intro hin
      have hpair := h0.uns_sorted
      rw [hsplit, List.append_assoc] at hpair
      have := (List.pairwise_append.mp hpair).2.2 index hin index (by simp)
      exact lt_irrefl index this
    have hstep := c9Inv_step hidx hnotpre h
    have hres := ih (pre ++ [index]) tail (reduceStep st index)
      (by rw [hsplit]; simp) hstep
    simpa using hres

/-- The C9 bookkeeping relation survives one full `reduceOptions` pass. -/
lemma unsInv_reduceOptions {bm : BoardMap} (h : SInv bm) (hmc : MaskComplete bm)
    (hu : UnsInv bm) : UnsInv (reduceOptions bm).1 := by
  have hp := reduceOptions_passInv h hmc
  have hq : C9Inv bm bm.unsolved (bm.unsolved.foldl reduceStep (bm, [], 0)) := by
    have := c9Inv_fold_prefix h bm.unsolved [] [] (bm, [], 0) (by simp)
      ⟨h.sq_len, h.sq_lt, fun i _ => rfl,
        fun i hi _ => absurd hi (List.not_mem_nil i)⟩
    simpa using this
  intro i hi81
  have hmem : (i ∈ (reduceOptions bm).1.unsolved) ↔ (i ∈ bm.unsolved ∧
      i ∉ (bm.unsolved.foldl reduceStep (bm, [], 0)).2.1) := by
    show i ∈ (bm.unsolved.foldl reduceStep (bm, [], 0)).1.unsolved.filter _ ↔ _
    rw [List.mem_filter, hp.p_uns]
    simp
  have hsqe : (reduceOptions bm).1.squares =
      (bm.unsolved.foldl reduceStep (bm, [], 0)).1.squares := rfl
  rw [hmem, hsqe]
  by_cases hbm : i ∈ bm.unsolved
  · by_cases hsolv : i ∈ (bm.unsolved.foldl reduceStep (bm, [], 0)).2.1
    · have hne := (hp.p_solved i hsolv).1
      have hfill := hp.p_filled i hi81 hne
      have hdig : (bm.unsolved.foldl reduceStep (bm, [], 0)).1.board.getD i '.'
          ∈ digitChars := (hp.p_wf i hi81).resolve_left hne
      have h1 : bitCount
          ((bm.unsolved.foldl reduceStep (bm, [], 0)).1.squares.getD i 0) = 1 := by
        rw [hfill]
        exact bitCount_charMask _ hdig
      constructor
      · rintro ⟨_, habs⟩
        exact absurd hsolv habs
      · intro hne1
        exact absurd h1 hne1
    · rcases hq.q_c9 i hbm hsolv with heq | hne1
      · rw [heq]
        exact ⟨fun _ => (hu i hi81).mp hbm, fun _ => ⟨hbm, hsolv⟩⟩
      · exact ⟨fun _ => hne1, fun _ => ⟨hbm, hsolv⟩⟩
  · have heq : (bm.unsolved.foldl reduceStep (bm, [], 0)).1.squares.getD i 0 =
        bm.squares.getD i 0 := hq.q_squ i hbm
    have h1 : bitCount (bm.squares.getD i 0) = 1 := by
      by_contra hne1
      exact hbm ((hu i hi81).mpr hne1)
    rw [heq]
    constructor
    · rintro ⟨habs, _⟩
      exact absurd habs hbm
    · intro hne1
      exact absurd h1 hne1

/-- The C9 bookkeeping relation survives the whole propagation loop. -/
lemma unsInv_propagateGo : ∀ (fuel : Nat) (bm : BoardMap), SInv bm →
    MaskComplete bm → UnsInv bm → UnsInv (propagateGo fuel bm) := by
  intro fuel
  induction fuel with
  | zero => intro bm _ _ hu; exact hu
  | succ fuel ih =>
    intro bm h hmc hu
    simp only [propagateGo]
    by_cases hz : (reduceOptions bm).2 > 0
    · rw [if_pos hz]
      exact ih _ (sinv_reduceOptions h hmc) (maskComplete_reduceOptions h hmc)
        (unsInv_reduceOptions h hmc hu)
    · rw [if_neg hz]
      exact unsInv_reduceOptions h hmc hu

lemma unsInv_propagate {bm : BoardMap} (h : SInv bm) (hmc : MaskComplete bm)
    (hu : UnsInv bm) : UnsInv (propagate bm) :=
  unsInv_propagateGo (totalPoss bm + 1) bm h hmc hu

/-! ### Concrete boards used as witnesses and counterexamples -/

/-- The entirely empty grid. -/
def emptyG : List Char := List.replicate 81 '.'

/-- A full valid solved grid. -/
def fullG : List Char :=
  ("123456789" ++ "456789123" ++ "789123456" ++ "231674895" ++ "875912364" ++
   "694538217" ++ "317265948" ++ "542897631" ++ "968341572").toList

/-- A full grid of all ones: every cell filled, massively duplicated. -/
def allOnesG : List Char := List.replicate 81 '1'

/-- An unsatisfiable grid on which propagation commits cell 8 to `9`
before a cell reaches zero possibilities. -/
def unsatG : List Char :=
  ("12345678." ++ "45678123." ++ "........." ++ "........." ++ "........." ++
   "........." ++ "........." ++ "........." ++ ".........").toList

/-- An unsatisfiable grid that stalls propagation: cells 0, 1, 9 and 10
keep candidates from a set too small to fill them, so solve guesses at
cell 0 and retracts. -/
def unsatG2 : List Char :=
  ("..3456789" ++ "..6789345" ++ "........." ++ "........." ++ "........." ++
   "........." ++ "........." ++ "........." ++ ".........").toList

lemma emptyCount_le_81 (g : List Char) : emptyCount g ≤ 81 := by
  unfold emptyCount
  calc ((Finset.range 81).filter fun i => g.getD i '.' = '.').card
      ≤ (Finset.range 81).card := Finset.card_filter_le _ _
    _ = 81 := Finset.card_range 81

lemma toChar_charMask : ∀ c ∈ digitChars, toChar (charMask c) = c := by decide

/-- A cell of `unsolved` is committed by a pass (its board entry becomes a
symbol) exactly when the pass changed its mask down to a single set bit,
and the symbol written is the one named by that bit (`toChar` of the
mask). -/
lemma reduceOptions_commit_iff {bm : BoardMap} (h : SInv bm)
    (hmc : MaskComplete bm) : ∀ i ∈ bm.unsolved,
      ((reduceOptions bm).1.board.getD i '.' ≠ '.' ↔
        ((reduceOptions bm).1.squares.getD i 0 ≠ bm.squares.getD i 0 ∧
          bitCount ((reduceOptions bm).1.squares.getD i 0) = 1)) ∧
      ((reduceOptions bm).1.board.getD i '.' ≠ '.' →
        (reduceOptions bm).1.board.getD i '.' =
          toChar ((reduceOptions bm).1.squares.getD i 0)) := by
  intro i hi
  have hi81 : i < 81 := h.uns_lt i hi
  have hp := reduceOptions_passInv h hmc
  have hq : C9Inv bm bm.unsolved (bm.unsolved.foldl reduceStep (bm, [], 0)) := by
    have := c9Inv_fold_prefix h bm.unsolved [] [] (bm, [], 0) (by simp)
      ⟨h.sq_len, h.sq_lt, fun j _ => rfl,
        fun j hj _ => absurd hj (List.not_mem_nil j)⟩
    simpa using this
  have hbeq : (reduceOptions bm).1.board =
      (bm.unsolved.foldl reduceStep (bm, [], 0)).1.board := rfl
  have hsqe : (reduceOptions bm).1.squares =
      (bm.unsolved.foldl reduceStep (bm, [], 0)).1.squares := rfl
  rw [hbeq, hsqe]
  have hfilled : (bm.unsolved.foldl reduceStep (bm, [], 0)).1.board.getD i '.'
      ≠ '.' → (bm.unsolved.foldl reduceStep (bm, [], 0)).1.board.getD i '.' =
      toChar ((bm.unsolved.foldl reduceStep (bm, [], 0)).1.squares.getD i 0) := by
    intro hne
    have hdig : (bm.unsolved.foldl reduceStep (bm, [], 0)).1.board.getD i '.'
        ∈ digitChars := (hp.p_wf i hi81).resolve_left hne
    rw [hp.p_filled i hi81 hne, toChar_charMask _ hdig]
  refine ⟨⟨?_, ?_⟩, hfilled⟩
  · intro hne
    have hsolv : i ∈ (bm.unsolved.foldl reduceStep (bm, [], 0)).2.1 :=
      ((hp.p_mem i hi81).mp hi).resolve_left hne
    have hdig : (bm.unsolved.foldl reduceStep (bm, [], 0)).1.board.getD i '.'
        ∈ digitChars := (hp.p_wf i hi81).resolve_left hne
    refine ⟨hp.p_schanged i hsolv, ?_⟩
    rw [hp.p_filled i hi81 hne]
    exact bitCount_charMask _ hdig
  · rintro ⟨hch, h1⟩
    intro hdot
    have hnsolv : i ∉ (bm.unsolved.foldl reduceStep (bm, [], 0)).2.1 := by
      intro hin
      exact (hp.p_solved i hin).1 hdot
    rcases hq.q_c9 i hi hnsolv with heq | hne1
    · exact hch heq
    · exact hne1 h1

/-! ### The claims -/

/-- C1 counterexample: the claim quantifies over every 9x9 input grid of
cells `'1'`-`'9'` or `'.'`; an input may itself break the Sudoku rules.
On the all-ones grid `solve` returns true (nothing is unsolved) yet no
row, column or block of the bound grid holds each symbol exactly once. -/
theorem C1_counterexample :
    WellFormedInput allOnesG ∧
    solve 1 allOnesG = some (true, propagate (mkBoardMap allOnesG), []) ∧
    ¬ GroupsExactlyOnce (propagate (mkBoardMap allOnesG)).board :=
  ⟨by decide, rfl, by decide⟩

/-- C1 (amended): for every well-formed input grid whose given clues have
no duplicate within a row, column or 3x3 block, if `solve` returns true
then the final bound grid contains each of the nine symbols exactly once
in every row, column and 3x3 block, with no empty cells. -/
theorem C1_amended (g : List Char) (fuel : Nat) (bm2 : BoardMap)
    (tr : List (Nat × Nat)) (hwf : WellFormedInput g)
    (hval : ValidPartialBoard g)
    (hrun : solve fuel g = some (true, bm2, tr)) :
    GroupsExactlyOnce bm2.board ∧ CompleteBoard bm2.board := by
  have hS := inv_of_mkBoardMap hwf hval
  have hM := maskComplete_of_mkBoardMap hwf
  obtain ⟨hSp, hMp, hz, _, _, _, _⟩ := propagate_spec _ hS hM
  have hFp := propFix_of_zero hSp hMp hz
  have hrun2 : solveGo fuel (propagate (mkBoardMap g)) = some (true, bm2, tr) :=
    hrun
  obtain ⟨_, hcomp, hvalb, _⟩ :=
    (solveGo_spec fuel _ hSp hFp hMp true bm2 tr hrun2).1 rfl
  exact ⟨groupsExactlyOnce_of_complete hcomp hvalb, hcomp⟩

/-- Witness for C1 (amended) at a full valid grid. -/
theorem C1_amended_witness :
    GroupsExactlyOnce (propagate (mkBoardMap fullG)).board ∧
    CompleteBoard (propagate (mkBoardMap fullG)).board :=
  C1_amended fullG 1 (propagate (mkBoardMap fullG)) [] (by decide) (by decide)
    rfl

/-- C2: with fuel covering the search bound, `solve` answers on every
well-formed valid input; it returns true exactly when the input grid has a
complete solution, and on true the bound grid holds such a solution. -/
theorem C2_solve_iff_solvable (g : List Char) (fuel : Nat)
    (hwf : WellFormedInput g) (hval : ValidPartialBoard g)
    (hfuel : 59860 ≤ fuel) :
    ∃ res bm2 tr, solve fuel g = some (res, bm2, tr) ∧
      (res = true ↔ ∃ s, IsSolutionOf s g) ∧
      (res = true → IsSolutionOf bm2.board g) := by
  have hS := inv_of_mkBoardMap hwf hval
  have hM := maskComplete_of_mkBoardMap hwf
  obtain ⟨hSp, hMp, hz, hExtp, hSolp, _, hTp⟩ := propagate_spec _ hS hM
  have hFp := propFix_of_zero hSp hMp hz
  have hb : (mkBoardMap g).board = g := (mkBoardMap_inv g).board_eq
  rw [hb] at hExtp hSolp
  have hec := emptyCount_le_81 (propagate (mkBoardMap g)).board
  have htp : totalPoss (propagate (mkBoardMap g)) ≤ 729 :=
    le_trans hTp (totalPoss_le_729 hS.sq_len hS.sq_lt)
  have hsome := solveGo_total fuel _ hSp hFp hMp (by omega)
  obtain ⟨⟨res, bm2, tr⟩, hrun⟩ := Option.isSome_iff_exists.mp hsome
  have hspec := solveGo_spec fuel _ hSp hFp hMp res bm2 tr hrun
  have hsolveeq : solve fuel g = some (res, bm2, tr) := hrun
  refine ⟨res, bm2, tr, hsolveeq, ?_, ?_⟩
  · constructor
    · intro hres
      obtain ⟨hlen, hcomp, hvalb, hext⟩ := hspec.1 hres
      exact ⟨bm2.board, hlen, hcomp, hvalb, extendsBoard_trans hExtp hext⟩
    · intro hsol
      by_contra hne
      have hres : res = false := by
        cases res
        · rfl
        · exact absurd rfl hne
      obtain ⟨_, hnosol⟩ := hspec.2.1 hres
      obtain ⟨s, hs⟩ := hsol
      exact hnosol ⟨s, (hSolp s).mpr hs⟩
  · intro hres
    obtain ⟨hlen, hcomp, hvalb, hext⟩ := hspec.1 hres
    exact ⟨hlen, hcomp, hvalb, extendsBoard_trans hExtp hext⟩

/-- Witness for C2 at a full valid grid with ample fuel. -/
theorem C2_witness :
    ∃ res bm2 tr, solve 59860 fullG = some (res, bm2, tr) ∧
      (res = true ↔ ∃ s, IsSolutionOf s fullG) ∧
      (res = true → IsSolutionOf bm2.board fullG) :=
  C2_solve_iff_solvable fullG 59860 (by decide) (by decide) (by decide)

/-- C5: with fuel covering the `emptyCount * 730 + totalPoss` measure the
search always answers after finitely many steps; the witness instantiates
this on the entirely empty grid. -/
theorem C5_termination (g : List Char) (fuel : Nat) (hwf : WellFormedInput g)
    (hval : ValidPartialBoard g) (hfuel : 59860 ≤ fuel) :
    ∃ res bm2 tr, solve fuel g = some (res, bm2, tr) := by
  have hS := inv_of_mkBoardMap hwf hval
  have hM := maskComplete_of_mkBoardMap hwf
  obtain ⟨hSp, hMp, hz, _, _, _, hTp⟩ := propagate_spec _ hS hM
  have hFp := propFix_of_zero hSp hMp hz
  have hec := emptyCount_le_81 (propagate (mkBoardMap g)).board
  have htp : totalPoss (propagate (mkBoardMap g)) ≤ 729 :=
    le_trans hTp (totalPoss_le_729 hS.sq_len hS.sq_lt)
  have hsome := solveGo_total fuel _ hSp hFp hMp (by omega)
  obtain ⟨⟨res, bm2, tr⟩, hrun⟩ := Option.isSome_iff_exists.mp hsome
  exact ⟨res, bm2, tr, hrun⟩

/-- Witness for C5: termination on the entirely empty grid. -/
theorem C5_witness : ∃ res bm2 tr, solve 59860 emptyG = some (res, bm2, tr) :=
  C5_termination emptyG 59860 (by decide) (by decide) (by decide)

/-- C7: on true the bound grid holds the complete solution; on false the
bound grid is exactly the post-propagation board, so every cell committed
by propagation before the contradiction stays written (no rollback) while
the original clues are intact. -/
theorem C7_no_rollback (g : List Char) (fuel : Nat) (res : Bool)
    (bm2 : BoardMap) (tr : List (Nat × Nat)) (hwf : WellFormedInput g)
    (hval : ValidPartialBoard g)
    (hrun : solve fuel g = some (res, bm2, tr)) :
    (res = true → IsSolutionOf bm2.board g) ∧
    (res = false → bm2.board = (propagate (mkBoardMap g)).board ∧
      ExtendsBoard g bm2.board) := by
  have hS := inv_of_mkBoardMap hwf hval
  have hM := maskComplete_of_mkBoardMap hwf
  obtain ⟨hSp, hMp, hz, hExtp, _, _, _⟩ := propagate_spec _ hS hM
  have hFp := propFix_of_zero hSp hMp hz
  have hb : (mkBoardMap g).board = g := (mkBoardMap_inv g).board_eq
  rw [hb] at hExtp
  have hrun2 : solveGo fuel (propagate (mkBoardMap g)) = some (res, bm2, tr) :=
    hrun
  have hspec := solveGo_spec fuel _ hSp hFp hMp res bm2 tr hrun2
  constructor
  · intro hres
    obtain ⟨hlen, hcomp, hvalb, hext⟩ := hspec.1 hres
    exact ⟨hlen, hcomp, hvalb, extendsBoard_trans hExtp hext⟩
  · intro hres
    obtain ⟨hbeq, _⟩ := hspec.2.1 hres
    rw [hbeq]
    exact ⟨rfl, hExtp⟩

/-- Witness for C7: on `unsatG` solve fails, yet the returned board is the
post-propagation board, which differs from the input while extending it. -/
theorem C7_witness :
    (propagate (mkBoardMap unsatG)).board ≠ unsatG ∧
    ((false : Bool) = false → (propagate (mkBoardMap unsatG)).board =
        (propagate (mkBoardMap unsatG)).board ∧
      ExtendsBoard unsatG (propagate (mkBoardMap unsatG)).board) :=
  ⟨by decide, (C7_no_rollback unsatG 1 false (propagate (mkBoardMap unsatG)) []
    (by decide) (by decide) rfl).2⟩

/-- C10: every initially given clue holds its original symbol in the bound
grid afterwards, whether `solve` returns true or false. -/
theorem C10_clue_preservation (g : List Char) (fuel : Nat) (res : Bool)
    (bm2 : BoardMap) (tr : List (Nat × Nat)) (hwf : WellFormedInput g)
    (hval : ValidPartialBoard g)
    (hrun : solve fuel g = some (res, bm2, tr)) :
    ExtendsBoard g bm2.board := by
  have hS := inv_of_mkBoardMap hwf hval
  have hM := maskComplete_of_mkBoardMap hwf
  obtain ⟨hSp, hMp, hz, hExtp, _, _, _⟩ := propagate_spec _ hS hM
  have hFp := propFix_of_zero hSp hMp hz
  have hb : (mkBoardMap g).board = g := (mkBoardMap_inv g).board_eq
  rw [hb] at hExtp
  have hrun2 : solveGo fuel (propagate (mkBoardMap g)) = some (res, bm2, tr) :=
    hrun
  have hspec := solveGo_spec fuel _ hSp hFp hMp res bm2 tr hrun2
  cases res with
  | true =>
    obtain ⟨_, _, _, hext⟩ := hspec.1 rfl
    exact extendsBoard_trans hExtp hext
  | false =>
    obtain ⟨hbeq, _⟩ := hspec.2.1 rfl
    rw [hbeq]
    exact hExtp

/-- Witness for C10 on a failing run that keeps every clue. -/
theorem C10_witness :
    ExtendsBoard unsatG (propagate (mkBoardMap unsatG)).board :=
  C10_clue_preservation unsatG 1 false (propagate (mkBoardMap unsatG)) []
    (by decide) (by decide) rfl

/-- C3: `solve` is a pure deterministic function — equal grid contents
give identical results, final grids and guess traces — and each guess,
which heads the trace of its own recursive search call, is made at the
scan-selected cell (lowest index among the cells of minimum possibility
count) trying that cell's lowest-valued remaining candidate. -/
theorem C3_deterministic (fuel : Nat) (g1 g2 : List Char) (hg : g1 = g2) :
    solve fuel g1 = solve fuel g2 ∧
    (∀ bm res bm2 gi v tr, SInv bm → PropFix bm →
      solveGo fuel bm = some (res, bm2, (gi, v) :: tr) →
      gi ∈ bm.unsolved ∧
      (∀ i ∈ bm.unsolved, numPossibilities bm gi ≤ numPossibilities bm i) ∧
      (∀ i ∈ bm.unsolved, i < gi →
        numPossibilities bm gi < numPossibilities bm i) ∧
      v = pickGuess (bm.squares.getD gi 0) ∧
      (bm.squares.getD gi 0).testBit (v - 1) = true ∧
      (∀ w, 1 ≤ w → w < v → (bm.squares.getD gi 0).testBit (w - 1) = false)) := by
  constructor
  · rw [hg]
  · intro bm res bm2 gi v tr h hfix hrun
    cases fuel with
    | zero => exact absurd hrun (by simp [solveGo])
    | succ fuel =>
      simp only [solveGo] at hrun
      split at hrun
      · simp only [Option.some.injEq, Prod.mk.injEq] at hrun
        exact absurd hrun.2.2.symm (List.cons_ne_nil _ _)
      · rename_i hemp
        have hneq : bm.unsolved ≠ [] := by
          intro hn
          rw [hn] at hemp
          exact hemp rfl
        split at hrun
        · simp only [Option.some.injEq, Prod.mk.injEq] at hrun
          exact absurd hrun.2.2.symm (List.cons_ne_nil _ _)
        · rename_i scanned few2 gi2 hscan
          obtain ⟨hmemg, hlege, hstrictg, hnzg⟩ :=
            guess_point_facts h hfix hneq hscan
          have hgi81 : gi2 < 81 := h.uns_lt gi2 hmemg
          obtain ⟨hp1, hp9, hpbit, hplow⟩ := pickGuess_spec _
            (h.sq_lt gi2 hgi81) (numPoss_ne_zero h hgi81 hnzg)
          split at hrun
          · exact absurd hrun (by simp)
          · rename_i xclone copy tr1 hclone
            simp only [Option.some.injEq, Prod.mk.injEq] at hrun
            obtain ⟨-, -, htr⟩ := hrun
            obtain ⟨hgi, hv⟩ : gi2 = gi ∧
                pickGuess (bm.squares.getD gi2 0) = v := by
              have h4 := htr
              simp only [List.cons.injEq, Prod.mk.injEq] at h4
              exact h4.1
            subst hgi
            subst hv
            exact ⟨hmemg, hlege, hstrictg, rfl, hpbit, hplow⟩
          · rename_i xclone cfst tr1 hclone
            split at hrun
            · exact absurd hrun (by simp)
            · rename_i xr rb rbm rtr hretract
              simp only [Option.some.injEq, Prod.mk.injEq] at hrun
              obtain ⟨-, -, htr⟩ := hrun
              obtain ⟨hgi, hv⟩ : gi2 = gi ∧
                  pickGuess (bm.squares.getD gi2 0) = v := by
                have h4 := htr
                injection h4 with h5 h6
                injection h5 with h7 h8
                exact ⟨h7, h8⟩
              subst hgi
              subst hv
              exact ⟨hmemg, hlege, hstrictg, rfl, hpbit, hplow⟩

/-- Witness for C3, instantiated at a full valid grid. -/
theorem C3_witness :
    solve 1 fullG = solve 1 fullG ∧
    (∀ bm res bm2 gi v tr, SInv bm → PropFix bm →
      solveGo 1 bm = some (res, bm2, (gi, v) :: tr) →
      gi ∈ bm.unsolved ∧
      (∀ i ∈ bm.unsolved, numPossibilities bm gi ≤ numPossibilities bm i) ∧
      (∀ i ∈ bm.unsolved, i < gi →
        numPossibilities bm gi < numPossibilities bm i) ∧
      v = pickGuess (bm.squares.getD gi 0) ∧
      (bm.squares.getD gi 0).testBit (v - 1) = true ∧
      (∀ w, 1 ≤ w → w < v → (bm.squares.getD gi 0).testBit (w - 1) = false)) :=
  C3_deterministic 1 fullG fullG rfl

/-- C4: in a search-loop iteration with unsolved cells left, a cell with
zero remaining possibilities makes the call return false at once with no
guess; otherwise the scan yields the lowest-index cell among those of
minimum possibility count (first-minimum tie-breaking over the ascending
`unsolved` order) and the guessed symbol is the lowest-valued candidate
whose bit is still set in that cell's mask. -/
theorem C4_selection (fuel : Nat) (bm : BoardMap) (h : SInv bm)
    (hfix : PropFix bm) (hne : bm.unsolved ≠ []) :
    ((∃ z ∈ bm.unsolved, numPossibilities bm z = 0) →
      solveGo (fuel + 1) bm = some (false, bm, [])) ∧
    (∀ few2 gi, scanGuess bm bm.unsolved 9 0 = some (few2, gi) →
      gi ∈ bm.unsolved ∧
      (∀ i ∈ bm.unsolved, numPossibilities bm gi ≤ numPossibilities bm i) ∧
      (∀ i ∈ bm.unsolved, i < gi →
        numPossibilities bm gi < numPossibilities bm i) ∧
      1 ≤ pickGuess (bm.squares.getD gi 0) ∧
      pickGuess (bm.squares.getD gi 0) ≤ 9 ∧
      (bm.squares.getD gi 0).testBit
        (pickGuess (bm.squares.getD gi 0) - 1) = true ∧
      (∀ w, 1 ≤ w → w < pickGuess (bm.squares.getD gi 0) →
        (bm.squares.getD gi 0).testBit (w - 1) = false)) := by
  have hempf : bm.unsolved.isEmpty = false := by
    cases hu : bm.unsolved with
    | nil => exact absurd hu hne
    | cons a l => rfl
  constructor
  · intro hz
    have hnone : scanGuess bm bm.unsolved 9 0 = none :=
      (scanGuess_none_iff bm bm.unsolved 9 0).mpr hz
    simp only [solveGo, hempf, hnone, Bool.false_eq_true, if_false]
  · intro few2 gi hscan
    obtain ⟨hmemg, hlege, hstrictg, hnzg⟩ := guess_point_facts h hfix hne hscan
    have hgi81 : gi < 81 := h.uns_lt gi hmemg
    obtain ⟨hp1, hp9, hpbit, hplow⟩ := pickGuess_spec _ (h.sq_lt gi hgi81)
      (numPoss_ne_zero h hgi81 hnzg)
    exact ⟨hmemg, hlege, hstrictg, hp1, hp9, hpbit, hplow⟩

/-- Witness for C4 at the constructed table of the empty grid (its group
masks are all zero, so it is already a propagation fixpoint). -/
theorem C4_witness :
    ((∃ z ∈ (mkBoardMap emptyG).unsolved,
        numPossibilities (mkBoardMap emptyG) z = 0) →
      solveGo 1 (mkBoardMap emptyG) = some (false, mkBoardMap emptyG, [])) ∧
    (∀ few2 gi, scanGuess (mkBoardMap emptyG)
        (mkBoardMap emptyG).unsolved 9 0 = some (few2, gi) →
      gi ∈ (mkBoardMap emptyG).unsolved ∧
      (∀ i ∈ (mkBoardMap emptyG).unsolved,
        numPossibilities (mkBoardMap emptyG) gi ≤
          numPossibilities (mkBoardMap emptyG) i) ∧
      (∀ i ∈ (mkBoardMap emptyG).unsolved, i < gi →
        numPossibilities (mkBoardMap emptyG) gi <
          numPossibilities (mkBoardMap emptyG) i) ∧
      1 ≤ pickGuess ((mkBoardMap emptyG).squares.getD gi 0) ∧
      pickGuess ((mkBoardMap emptyG).squares.getD gi 0) ≤ 9 ∧
      ((mkBoardMap emptyG).squares.getD gi 0).testBit
        (pickGuess ((mkBoardMap emptyG).squares.getD gi 0) - 1) = true ∧
      (∀ w, 1 ≤ w → w < pickGuess ((mkBoardMap emptyG).squares.getD gi 0) →
        ((mkBoardMap emptyG).squares.getD gi 0).testBit (w - 1) = false)) :=
  C4_selection 0 (mkBoardMap emptyG)
    (inv_of_mkBoardMap (by decide) (by decide)) (by decide) (by decide)

/-- C6: a pass visits `unsolved` in ascending order (the list is sorted
strictly increasing); its return value counts exactly the visited cells
whose mask changed during the pass; after any prefix of the pass the row,
column and block masks already reflect every commit of that prefix
(mid-pass visibility for later cells); a visited cell is committed exactly
when the pass shrank its mask to a single set bit, and the symbol written
to the grid is the one named by that bit; cells are removed from
`unsolved` only by the deferred erase at the end of the pass, exactly the
freshly committed ones; and the propagation loop iterates `reduceOptions`
exactly until a pass returns zero, a zero pass leaving the state
unchanged. -/
theorem C6_pass_semantics (bm : BoardMap) (h : SInv bm)
    (hmc : MaskComplete bm) :
    bm.unsolved.Pairwise (· < ·) ∧
    (reduceOptions bm).2 = (bm.unsolved.filter fun i =>
      !((reduceOptions bm).1.squares.getD i 0 == bm.squares.getD i 0)).length ∧
    (∀ pre tail, bm.unsolved = pre ++ tail → ∀ k < 9, ∀ b < 9,
      ((((pre.foldl reduceStep (bm, [], 0)).1.rows.getD k 0).testBit b =
          true ↔
        ∃ i < 81, rowIndex i = k ∧
          (pre.foldl reduceStep (bm, [], 0)).1.board.getD i '.' =
            digitChar b) ∧
       (((pre.foldl reduceStep (bm, [], 0)).1.columns.getD k 0).testBit b =
          true ↔
        ∃ i < 81, columnIndex i = k ∧
          (pre.foldl reduceStep (bm, [], 0)).1.board.getD i '.' =
            digitChar b) ∧
       (((pre.foldl reduceStep (bm, [], 0)).1.blocks.getD k 0).testBit b =
          true ↔
        ∃ i < 81, blockIndex i = k ∧
          (pre.foldl reduceStep (bm, [], 0)).1.board.getD i '.' =
            digitChar b))) ∧
    (∀ i ∈ bm.unsolved,
      ((reduceOptions bm).1.board.getD i '.' ≠ '.' ↔
        ((reduceOptions bm).1.squares.getD i 0 ≠ bm.squares.getD i 0 ∧
          bitCount ((reduceOptions bm).1.squares.getD i 0) = 1)) ∧
      ((reduceOptions bm).1.board.getD i '.' ≠ '.' →
        (reduceOptions bm).1.board.getD i '.' =
          toChar ((reduceOptions bm).1.squares.getD i 0))) ∧
    ((reduceOptions bm).1.unsolved = bm.unsolved.filter fun i =>
      (reduceOptions bm).1.board.getD i '.' == '.') ∧
    ((reduceOptions bm).2 = 0 → (reduceOptions bm).1 = bm) ∧
    (∃ k, propagate bm = Nat.iterate (fun b => (reduceOptions b).1) k bm) ∧
    (reduceOptions (propagate bm)).2 = 0 := by
  refine ⟨h.uns_sorted, reduceOptions_count_eq h hmc, ?_,
    reduceOptions_commit_iff h hmc,
    reduceOptions_unsolved_eq h hmc, reduceOptions_zero_eq h hmc,
    propagate_iterate bm, (propagate_spec bm h hmc).2.2.1⟩
  intro pre tail hsplit k hk b hb
  have hpp : PassInv bm pre (pre.foldl reduceStep (bm, [], 0)) := by
    have := passInv_fold_prefix h pre [] tail (bm, [], 0)
      (by rw [hsplit]; simp) (passInv_init h hmc)
    simpa using this
  exact ⟨hpp.p_rbit k hk b hb, hpp.p_cbit k hk b hb, hpp.p_kbit k hk b hb⟩

/-- Witness for C6 at the constructed table of `unsatG`. -/
theorem C6_witness :
    (mkBoardMap unsatG).unsolved.Pairwise (· < ·) ∧
    (reduceOptions (mkBoardMap unsatG)).2 =
      ((mkBoardMap unsatG).unsolved.filter fun i =>
        !((reduceOptions (mkBoardMap unsatG)).1.squares.getD i 0 ==
          (mkBoardMap unsatG).squares.getD i 0)).length ∧
    (∀ pre tail, (mkBoardMap unsatG).unsolved = pre ++ tail →
      ∀ k < 9, ∀ b < 9,
      ((((pre.foldl reduceStep (mkBoardMap unsatG, [], 0)).1.rows.getD k
          0).testBit b = true ↔
        ∃ i < 81, rowIndex i = k ∧
          (pre.foldl reduceStep (mkBoardMap unsatG, [], 0)).1.board.getD i
            '.' = digitChar b) ∧
       (((pre.foldl reduceStep (mkBoardMap unsatG, [], 0)).1.columns.getD k
          0).testBit b = true ↔
        ∃ i < 81, columnIndex i = k ∧
          (pre.foldl reduceStep (mkBoardMap unsatG, [], 0)).1.board.getD i
            '.' = digitChar b) ∧
       (((pre.foldl reduceStep (mkBoardMap unsatG, [], 0)).1.blocks.getD k
          0).testBit b = true ↔
        ∃ i < 81, blockIndex i = k ∧
          (pre.foldl reduceStep (mkBoardMap unsatG, [], 0)).1.board.getD i
            '.' = digitChar b))) ∧
    (∀ i ∈ (mkBoardMap unsatG).unsolved,
      ((reduceOptions (mkBoardMap unsatG)).1.board.getD i '.' ≠ '.' ↔
        ((reduceOptions (mkBoardMap unsatG)).1.squares.getD i 0 ≠
            (mkBoardMap unsatG).squares.getD i 0 ∧
          bitCount ((reduceOptions (mkBoardMap unsatG)).1.squares.getD i 0)
            = 1)) ∧
      ((reduceOptions (mkBoardMap unsatG)).1.board.getD i '.' ≠ '.' →
        (reduceOptions (mkBoardMap unsatG)).1.board.getD i '.' =
          toChar ((reduceOptions (mkBoardMap unsatG)).1.squares.getD i 0))) ∧
    ((reduceOptions (mkBoardMap unsatG)).1.unsolved =
      (mkBoardMap unsatG).unsolved.filter fun i =>
        (reduceOptions (mkBoardMap unsatG)).1.board.getD i '.' == '.') ∧
    ((reduceOptions (mkBoardMap unsatG)).2 = 0 →
      (reduceOptions (mkBoardMap unsatG)).1 = mkBoardMap unsatG) ∧
    (∃ k, propagate (mkBoardMap unsatG) =
      Nat.iterate (fun b => (reduceOptions b).1) k (mkBoardMap unsatG)) ∧
    (reduceOptions (propagate (mkBoardMap unsatG))).2 = 0 :=
  C6_pass_semantics (mkBoardMap unsatG)
    (inv_of_mkBoardMap (by decide) (by decide))
    (maskComplete_of_mkBoardMap (by decide))

/-- C8: per-cell mask monotonicity at any reachable table (the structural
invariant and completeness suffice; no fixpoint assumption) — a single
pass and the whole propagation loop never set a mask bit that was not
already set, nor does a guess retraction; and from a propagation fixpoint,
where the search loop actually runs and guesses, the complete remaining
search never does either. -/
theorem C8_monotone_masks (bm : BoardMap) (gi v fuel : Nat) (h : SInv bm)
    (hmc : MaskComplete bm) :
    (∀ i < 81, ∀ b,
      ((reduceOptions bm).1.squares.getD i 0).testBit b = true →
        (bm.squares.getD i 0).testBit b = true) ∧
    (∀ i < 81, ∀ b, ((propagate bm).squares.getD i 0).testBit b = true →
      (bm.squares.getD i 0).testBit b = true) ∧
    (∀ i < 81, ∀ b,
      ((retractState bm gi v).squares.getD i 0).testBit b = true →
        (bm.squares.getD i 0).testBit b = true) ∧
    (PropFix bm → ∀ res bm2 tr, solveGo fuel bm = some (res, bm2, tr) →
      ∀ i < 81, ∀ b, (bm2.squares.getD i 0).testBit b = true →
        (bm.squares.getD i 0).testBit b = true) := by
  refine ⟨reduceOptions_submask h hmc,
    (propagate_spec bm h hmc).2.2.2.2.2.1, ?_, ?_⟩
  · intro i hi b hb
    have hb2 : ((bm.squares.set gi (bm.squares.getD gi 0 &&&
        (65535 ^^^ (1 <<< (v - 1))))).getD i 0).testBit b = true := hb
    by_cases hii : i = gi
    · rw [hii, getD_set_self (by rw [h.sq_len]; omega), Nat.testBit_and] at hb2
      rw [hii]
      exact (Bool.and_eq_true_iff.mp hb2).1
    · rw [getD_set_ne _ _ fun he => hii he.symm] at hb2
      exact hb2
  · intro hfix res bm2 tr hrun
    exact (solveGo_spec fuel bm h hfix hmc res bm2 tr hrun).2.2

/-- Witness for C8 at the constructed table of `unsatG`, which is not a
propagation fixpoint: its first pass really removes bits. -/
theorem C8_witness :
    (∀ i < 81, ∀ b,
      ((reduceOptions (mkBoardMap unsatG)).1.squares.getD i 0).testBit b =
        true → ((mkBoardMap unsatG).squares.getD i 0).testBit b = true) ∧
    (∀ i < 81, ∀ b,
      ((propagate (mkBoardMap unsatG)).squares.getD i 0).testBit b = true →
        ((mkBoardMap unsatG).squares.getD i 0).testBit b = true) ∧
    (∀ i < 81, ∀ b,
      ((retractState (mkBoardMap unsatG) 0 1).squares.getD i 0).testBit b =
        true → ((mkBoardMap unsatG).squares.getD i 0).testBit b = true) ∧
    (PropFix (mkBoardMap unsatG) →
      ∀ res bm2 tr, solveGo 1 (mkBoardMap unsatG) = some (res, bm2, tr) →
      ∀ i < 81, ∀ b, (bm2.squares.getD i 0).testBit b = true →
        ((mkBoardMap unsatG).squares.getD i 0).testBit b = true) :=
  C8_monotone_masks (mkBoardMap unsatG) 0 1 1
    (inv_of_mkBoardMap (by decide) (by decide))
    (maskComplete_of_mkBoardMap (by decide))

/-- C9 counterexample: the claim includes the state after each guess
retraction; on `unsatG2` the first retraction of the run (guess 1 at cell
0, as the trace `[(0, 1), (0, 2)]` shows) leaves cell 0 in `unsolved`
although its mask then has exactly one set bit. -/
theorem C9_counterexample :
    (solve 3 unsatG2).map (fun r => (r.1, r.2.2)) =
      some (false, [(0, 1), (0, 2)]) ∧
    0 ∈ (retractState (propagate (mkBoardMap unsatG2)) 0 1).unsolved ∧
    bitCount ((retractState (propagate (mkBoardMap unsatG2)) 0
      1).squares.getD 0 0) = 1 :=
  ⟨rfl, by decide, by decide⟩

/-- C9 (amended): the bookkeeping relation "`unsolved` = cells whose mask
has ≠ 1 set bits" holds after construction and is preserved by every
`reduceOptions` pass — hence holds throughout pure propagation — but it is
not restored by a guess retraction. -/
theorem C9_amended (g : List Char) (bm : BoardMap) (hwf : WellFormedInput g)
    (h : SInv bm) (hmc : MaskComplete bm) (hu : UnsInv bm) :
    UnsInv (mkBoardMap g) ∧ UnsInv (reduceOptions bm).1 ∧
      UnsInv (propagate bm) :=
  ⟨unsInv_mkBoardMap hwf, unsInv_reduceOptions h hmc hu,
    unsInv_propagate h hmc hu⟩

/-- Witness for C9 (amended) at the stalled grid's table. -/
theorem C9_amended_witness :
    UnsInv (mkBoardMap unsatG2) ∧
    UnsInv (reduceOptions (mkBoardMap unsatG2)).1 ∧
    UnsInv (propagate (mkBoardMap unsatG2)) :=
  C9_amended unsatG2 (mkBoardMap unsatG2) (by decide)
    (inv_of_mkBoardMap (by decide) (by decide))
    (maskComplete_of_mkBoardMap (by decide)) (by decide)
